import Mathlib

/-!
Verification of the matching and resolution engine of the
zotero-publication-rankings plugin.

The JavaScript sources are shallowly embedded: JS strings become `List Char`
(with a `String` wrapper where convenient), the ASCII-oriented regular
expressions of `matching.js` become explicit recursive scanners over the
character classes they mention (`\w` = letter, digit or underscore;
`\s` = whitespace), JS `Map`s become insertion-ordered association lists,
fallible operations return `Option`/`Except`, and floating-point ratio
comparisons such as `matchCount / words.length >= 0.85` are modelled by
exact rational comparisons (`85 * n ≤ 100 * m` guarded by `n ≠ 0`, because
in JS `0/0 = NaN` and `NaN >= x` is false).
-/

set_option maxRecDepth 100000

namespace PubRank

/-! ## Character classes (JS regex semantics, ASCII as in the source data) -/

/-- JS `[A-Z]` (and `[a-z]` under the `i` flag): an ASCII letter. -/
def isAsciiLetter (c : Char) : Bool :=
  ('A' ≤ c && c ≤ 'Z') || ('a' ≤ c && c ≤ 'z')

/-- JS `\d`: an ASCII digit. -/
def isDigitChar (c : Char) : Bool :=
  '0' ≤ c && c ≤ '9'

/-- JS `\w`: letter, digit or underscore.  Note that `_` IS a word char. -/
def isWordChar (c : Char) : Bool :=
  isAsciiLetter c || isDigitChar c || c = '_'

/-- JS `\s` (core ASCII part): the whitespace characters. -/
def isSpaceChar (c : Char) : Bool :=
  c = ' ' || c = '\t' || c = '\n' || c = '\r' || c = '\x0b' || c = '\x0c'

/-- JS `String.prototype.toLowerCase` restricted to ASCII
(the reference tables and titles are ASCII): `A`–`Z` map down by 32. -/
def lowerChar (c : Char) : Char :=
  if 'A' ≤ c && c ≤ 'Z' then Char.ofNat (c.toNat + 32) else c

/-- An uppercase ASCII letter (start of the acronym regex `[A-Z]`). -/
def isUpperChar (c : Char) : Bool :=
  'A' ≤ c && c ≤ 'Z'

/-! ## `MatchingUtils.normalizeString` (matching.js)

```js
str.toLowerCase()
   .replace(/&/g, "and")
   .replace(/\btelecomm?unications?\b/g, "communications")
   .replace(/[^\w\s]/g, ' ')
   .replace(/\s+/g, ' ')
   .trim();
```
-/

/-- `.replace(/&/g, "and")`: each `&` becomes the three characters `and`. -/
def ampReplace (l : List Char) : List Char :=
  l.flatMap fun c => if c = '&' then ['a', 'n', 'd'] else [c]

/-- The four words matched by `\btelecomm?unications?\b` and their
replacement.  Because the pattern is a run of `\w` characters delimited by
`\b` on both sides, a match is exactly a maximal `\w`-run equal to one of
the four alternatives. -/
def replaceRun (r : List Char) : List Char :=
  if r = "telecommunication".data ∨ r = "telecommunications".data ∨
     r = "telecomunication".data ∨ r = "telecomunications".data
  then "communications".data else r

/-- Worker for the telecom replacement: `acc` holds the current maximal
`\w`-run, reversed. -/
def telecomAux (acc : List Char) : List Char → List Char
  | [] => replaceRun acc.reverse
  | c :: rest =>
    if isWordChar c then telecomAux (c :: acc) rest
    else replaceRun acc.reverse ++ c :: telecomAux [] rest

/-- `.replace(/\btelecomm?unications?\b/g, "communications")`. -/
def telecomReplace (l : List Char) : List Char :=
  telecomAux [] l

/-- Action of `.replace(/[^\w\s]/g, ' ')` on one character. -/
def cleanChar (c : Char) : Char :=
  if isWordChar c || isSpaceChar c then c else ' '

/-- `.replace(/[^\w\s]/g, ' ')`: every char that is neither `\w` nor `\s`
becomes a single space. -/
def punctClean (l : List Char) : List Char :=
  l.map cleanChar

/-- `.replace(/\s+/g, ' ')`: each maximal whitespace run becomes a single space. -/
def collapseWs : List Char → List Char
  | [] => []
  | [c] => if isSpaceChar c then [' '] else [c]
  | c :: d :: rest =>
    if isSpaceChar c then
      (if isSpaceChar d then collapseWs (d :: rest) else ' ' :: collapseWs (d :: rest))
    else c :: collapseWs (d :: rest)

/-- Remove trailing whitespace (right half of `String.prototype.trim`). -/
def rtrim : List Char → List Char
  | [] => []
  | c :: rest =>
    if rtrim rest = [] && isSpaceChar c then [] else c :: rtrim rest

/-- `String.prototype.trim`: drop whitespace at both ends. -/
def trimChars (l : List Char) : List Char :=
  rtrim (l.dropWhile isSpaceChar)

/-- `MatchingUtils.normalizeString`, on character lists. -/
def normalizeChars (l : List Char) : List Char :=
  trimChars (collapseWs (punctClean (telecomReplace (ampReplace (l.map lowerChar)))))

/-- `MatchingUtils.normalizeString`, on strings. -/
def normalizeString (s : String) : String :=
  ⟨normalizeChars s.data⟩

/-! ## Facts about the character classes -/

theorem not_word_of_space {c : Char} (h : isSpaceChar c = true) :
    isWordChar c = false := by
  simp only [isSpaceChar, Bool.or_eq_true, decide_eq_true_eq] at h
  rcases h with ((((h | h) | h) | h) | h) | h <;> subst h <;> decide

theorem not_space_of_word {c : Char} (h : isWordChar c = true) :
    isSpaceChar c = false := by
  cases hs : isSpaceChar c with
  | false => rfl
  | true => rw [not_word_of_space hs] at h; exact absurd h (by decide)

theorem lowerChar_fix (c : Char) : lowerChar (lowerChar c) = lowerChar c := by
  unfold lowerChar
  by_cases h : ('A' ≤ c && c ≤ 'Z') = true
  · simp only [h, if_true]
    have hb : 65 ≤ c.toNat ∧ c.toNat ≤ 90 := by
      simp only [Bool.and_eq_true, decide_eq_true_eq, Char.le_def] at h
      exact ⟨h.1, h.2⟩
    have hc : c = Char.ofNat c.toNat := (Char.ofNat_toNat c).symm
    rw [hc]
    obtain ⟨h1, h2⟩ := hb
    interval_cases c.toNat <;> decide
  · simp only [h, if_false]
    exact if_neg (by exact fun hh => h hh)

theorem lowerChar_space {c : Char} (h : isSpaceChar c = true) : lowerChar c = c := by
  simp only [isSpaceChar, Bool.or_eq_true, decide_eq_true_eq] at h
  rcases h with ((((h | h) | h) | h) | h) | h <;> subst h <;> decide

/-! ## Small generic list helpers -/

theorem map_id_of_fix {f : Char → Char} {l : List Char}
    (h : ∀ c ∈ l, f c = c) : l.map f = l := by
  induction l with
  | nil => rfl
  | cons c rest ih =>
    simp only [List.map_cons, h c (List.mem_cons_self c rest),
      ih fun x hx => h x (List.mem_cons_of_mem c hx)]

theorem takeWhile_all {p : Char → Bool} {l : List Char}
    (h : ∀ c ∈ l, p c = true) : l.takeWhile p = l := by
  induction l with
  | nil => rfl
  | cons c rest ih =>
    rw [List.takeWhile_cons, h c (List.mem_cons_self c rest)]
    simp [ih fun x hx => h x (List.mem_cons_of_mem c hx)]

theorem dropWhile_all {p : Char → Bool} {l : List Char}
    (h : ∀ c ∈ l, p c = true) : l.dropWhile p = [] := by
  induction l with
  | nil => rfl
  | cons c rest ih =>
    rw [List.dropWhile_cons, h c (List.mem_cons_self c rest)]
    simp [ih fun x hx => h x (List.mem_cons_of_mem c hx)]

theorem takeWhile_append_all {p : Char → Bool} {xs ys : List Char}
    (h : ∀ c ∈ xs, p c = true) :
    (xs ++ ys).takeWhile p = xs ++ ys.takeWhile p := by
  induction xs with
  | nil => rfl
  | cons c rest ih =>
    rw [List.cons_append, List.takeWhile_cons, h c (List.mem_cons_self c rest)]
    simp [ih fun x hx => h x (List.mem_cons_of_mem c hx)]

theorem dropWhile_append_all {p : Char → Bool} {xs ys : List Char}
    (h : ∀ c ∈ xs, p c = true) :
    (xs ++ ys).dropWhile p = ys.dropWhile p := by
  induction xs with
  | nil => rfl
  | cons c rest ih =>
    rw [List.cons_append, List.dropWhile_cons, h c (List.mem_cons_self c rest)]
    simp [ih fun x hx => h x (List.mem_cons_of_mem c hx)]

theorem takeWhile_nonhead {p : Char → Bool} {l : List Char}
    (h : ∀ c, l.head? = some c → p c = false) : l.takeWhile p = [] := by
  cases l with
  | nil => rfl
  | cons c rest => rw [List.takeWhile_cons, h c rfl]; rfl

theorem dropWhile_nonhead {p : Char → Bool} {l : List Char}
    (h : ∀ c, l.head? = some c → p c = false) : l.dropWhile p = l := by
  cases l with
  | nil => rfl
  | cons c rest => rw [List.dropWhile_cons, h c rfl]; rfl

theorem head_dropWhile {p : Char → Bool} {l : List Char} {c : Char}
    (h : (l.dropWhile p).head? = some c) : p c = false := by
  induction l with
  | nil => simp at h
  | cons d rest ih =>
    rw [List.dropWhile_cons] at h
    cases hd : p d with
    | true =>
      rw [hd] at h
      simp only [if_true] at h
      exact ih h
    | false =>
      rw [hd] at h
      simp only [Bool.false_eq_true, if_false, List.head?_cons, Option.some.injEq] at h
      rw [← h]; exact hd

/-! ## Word runs

`wordRuns l` lists the maximal runs of `\w`-characters of `l`, in order.
A match of `\btelecomm?unications?\b` is exactly such a run equal to one of
the four alternatives, so the telecom step is characterised by its action
on `wordRuns`. -/

def wordRuns : List Char → List (List Char)
  | [] => []
  | c :: rest =>
    if isWordChar c then
      (c :: rest.takeWhile isWordChar) :: wordRuns (rest.dropWhile isWordChar)
    else wordRuns rest
termination_by l => l.length
decreasing_by
  · simpa using Nat.lt_succ_of_le ((List.dropWhile_sublist _).length_le)
  · simp

theorem wordRuns_nil : wordRuns [] = [] := by rw [wordRuns]

theorem wordRuns_cons_word {c : Char} {rest : List Char} (h : isWordChar c = true) :
    wordRuns (c :: rest) =
      (c :: rest.takeWhile isWordChar) :: wordRuns (rest.dropWhile isWordChar) := by
  rw [wordRuns]; simp only [h, if_true]

theorem wordRuns_cons_notword {c : Char} {rest : List Char} (h : isWordChar c = false) :
    wordRuns (c :: rest) = wordRuns rest := by
  rw [wordRuns]; simp only [h, Bool.false_eq_true, if_false]

/-- The runs of an all-word list: the list itself (when nonempty). -/
theorem wordRuns_all_word {w : List Char} (hw : w ≠ [])
    (h : ∀ c ∈ w, isWordChar c = true) : wordRuns w = [w] := by
  cases w with
  | nil => exact absurd rfl hw
  | cons c rest =>
    rw [wordRuns_cons_word (h c (List.mem_cons_self c rest)),
      takeWhile_all fun x hx => h x (List.mem_cons_of_mem c hx),
      dropWhile_all fun x hx => h x (List.mem_cons_of_mem c hx), wordRuns_nil]

/-- Runs of an all-word block followed by a non-word-headed tail. -/
theorem wordRuns_block {w X : List Char} (hw : w ≠ [])
    (h : ∀ c ∈ w, isWordChar c = true)
    (hX : ∀ c, X.head? = some c → isWordChar c = false) :
    wordRuns (w ++ X) = w :: wordRuns X := by
  cases w with
  | nil => exact absurd rfl hw
  | cons c rest =>
    rw [List.cons_append,
      wordRuns_cons_word (h c (List.mem_cons_self c rest)),
      takeWhile_append_all fun x hx => h x (List.mem_cons_of_mem c hx),
      dropWhile_append_all fun x hx => h x (List.mem_cons_of_mem c hx),
      takeWhile_nonhead hX, dropWhile_nonhead hX, List.append_nil]

/-! ## The telecom step and word runs -/

theorem replaceRun_nil : replaceRun [] = [] := by decide

theorem replaceRun_all_word {r : List Char} (h : ∀ c ∈ r, isWordChar c = true) :
    ∀ c ∈ replaceRun r, isWordChar c = true := by
  unfold replaceRun
  by_cases hv : r = "telecommunication".data ∨ r = "telecommunications".data ∨
      r = "telecomunication".data ∨ r = "telecomunications".data
  · rw [if_pos hv]; intro c hc
    fin_cases hc <;> decide
  · rw [if_neg hv]; exact h

theorem replaceRun_ne_nil {r : List Char} (h : r ≠ []) : replaceRun r ≠ [] := by
  unfold replaceRun
  by_cases hv : r = "telecommunication".data ∨ r = "telecommunications".data ∨
      r = "telecomunication".data ∨ r = "telecomunications".data
  · rw [if_pos hv]; decide
  · rw [if_neg hv]; exact h

theorem replaceRun_replaceRun (r : List Char) :
    replaceRun (replaceRun r) = replaceRun r := by
  by_cases hv : r = "telecommunication".data ∨ r = "telecommunications".data ∨
      r = "telecomunication".data ∨ r = "telecomunications".data
  · have h1 : replaceRun r = "communications".data := by rw [replaceRun, if_pos hv]
    rw [h1]; decide
  · have h1 : replaceRun r = r := by rw [replaceRun, if_neg hv]
    rw [h1]; exact h1

theorem replaceRun_mem {c : Char} {r : List Char} (h : c ∈ replaceRun r) :
    c ∈ r ∨ c ∈ "communications".data := by
  unfold replaceRun at h
  by_cases hv : r = "telecommunication".data ∨ r = "telecommunications".data ∨
      r = "telecomunication".data ∨ r = "telecomunications".data
  · rw [if_pos hv] at h; exact Or.inr h
  · rw [if_neg hv] at h; exact Or.inl h

/-- Every run produced by `telecomAux` (on an all-word accumulator) is the
image of some run under `replaceRun`. -/
theorem telecomAux_runs :
    ∀ (l acc : List Char), (∀ c ∈ acc, isWordChar c = true) →
      ∀ r ∈ wordRuns (telecomAux acc l), ∃ r₀, r = replaceRun r₀ := by
  intro l
  induction l with
  | nil =>
    intro acc hacc r hr
    rw [telecomAux] at hr
    by_cases ha : acc = []
    · subst ha; rw [List.reverse_nil, replaceRun_nil, wordRuns_nil] at hr
      exact absurd hr (List.not_mem_nil r)
    · rw [wordRuns_all_word (replaceRun_ne_nil (by simpa using ha))
        (replaceRun_all_word fun c hc => hacc c (List.mem_reverse.mp hc))] at hr
      rw [List.mem_singleton] at hr
      exact ⟨acc.reverse, hr⟩
  | cons c rest ih =>
    intro acc hacc r hr
    rw [telecomAux] at hr
    by_cases hc : isWordChar c = true
    · rw [if_pos hc] at hr
      exact ih (c :: acc)
        (fun x hx => by rcases List.mem_cons.mp hx with h | h
                        exacts [h ▸ hc, hacc x h]) r hr
    · rw [if_neg hc] at hr
      by_cases ha : acc = []
      · subst ha
        rw [List.reverse_nil, replaceRun_nil, List.nil_append,
          wordRuns_cons_notword (Bool.not_eq_true _ ▸ hc)] at hr
        exact ih [] (by simp) r hr
      · rw [wordRuns_block (replaceRun_ne_nil (by simpa using ha))
              (replaceRun_all_word fun x hx => hacc x (List.mem_reverse.mp hx))
              (fun x hx => by
                simp only [List.head?_cons, Option.some.injEq] at hx
                exact hx ▸ Bool.not_eq_true _ ▸ hc)] at hr
        rcases List.mem_cons.mp hr with h | h
        · exact ⟨acc.reverse, h⟩
        · rw [wordRuns_cons_notword (Bool.not_eq_true _ ▸ hc)] at h
          exact ih [] (by simp) r h

/-- If no run of `acc.reverse ++ l` is a telecom variant, `telecomAux` is
the identity (up to flushing the accumulator). -/
theorem telecomAux_id :
    ∀ (l acc : List Char), (∀ c ∈ acc, isWordChar c = true) →
      (∀ r ∈ wordRuns (acc.reverse ++ l), replaceRun r = r) →
      telecomAux acc l = acc.reverse ++ l := by
  intro l
  induction l with
  | nil =>
    intro acc hacc hruns
    rw [telecomAux]
    by_cases ha : acc = []
    · subst ha; simp [replaceRun_nil]
    · rw [List.append_nil]
      exact hruns acc.reverse (by
        rw [List.append_nil, wordRuns_all_word (by simpa using ha)
          (fun c hc => hacc c (List.mem_reverse.mp hc))]
        exact List.mem_singleton.mpr rfl)
  | cons c rest ih =>
    intro acc hacc hruns
    rw [telecomAux]
    by_cases hc : isWordChar c = true
    · rw [if_pos hc]
      rw [ih (c :: acc)
        (fun x hx => by rcases List.mem_cons.mp hx with h | h
                        exacts [h ▸ hc, hacc x h])
        (by intro r hr
            apply hruns r
            rwa [List.reverse_cons, List.append_assoc, List.singleton_append] at hr)]
      rw [List.reverse_cons, List.append_assoc, List.singleton_append]
    · rw [if_neg hc]
      by_cases ha : acc = []
      · subst ha
        rw [List.reverse_nil, replaceRun_nil, List.nil_append, List.nil_append]
        rw [ih [] (by simp) (by
          intro r hr
          apply hruns r
          rw [List.reverse_nil, List.nil_append,
            wordRuns_cons_notword (Bool.not_eq_true _ ▸ hc)]
          exact hr)]
        rfl
      · have hblock : wordRuns (acc.reverse ++ c :: rest) =
            acc.reverse :: wordRuns rest := by
          rw [wordRuns_block (by simpa using ha)
            (fun x hx => hacc x (List.mem_reverse.mp hx))
            (fun x hx => by
              simp only [List.head?_cons, Option.some.injEq] at hx
              exact hx ▸ Bool.not_eq_true _ ▸ hc),
            wordRuns_cons_notword (Bool.not_eq_true _ ▸ hc)]
        rw [hruns acc.reverse (by rw [hblock]; exact List.mem_cons_self _ _)]
        rw [ih [] (by simp) (by
          intro r hr
          apply hruns r
          rw [hblock]
          exact List.mem_cons_of_mem _ hr)]
        rfl

/-! ## Word runs are preserved by the later pipeline stages -/

theorem cleanChar_word (c : Char) : isWordChar (cleanChar c) = isWordChar c := by
  unfold cleanChar
  by_cases h : (isWordChar c || isSpaceChar c) = true
  · rw [if_pos h]
  · rw [if_neg h]
    have hw : isWordChar c = false := by
      cases hcw : isWordChar c
      · rfl
      · exact absurd (by rw [hcw]; rfl) h
    rw [hw]; decide

theorem cleanChar_fix_word {c : Char} (h : isWordChar c = true) : cleanChar c = c := by
  rw [cleanChar, if_pos (by rw [h]; rfl)]

theorem cleanChar_fix_space {c : Char} (h : isSpaceChar c = true) : cleanChar c = c := by
  rw [cleanChar, if_pos (by rw [h, Bool.or_true])]

theorem wordRuns_punctClean (l : List Char) :
    wordRuns (punctClean l) = wordRuns l := by
  induction l using wordRuns.induct with
  | case1 => rfl
  | case2 c rest hc ih =>
    rw [punctClean, List.map_cons, cleanChar_fix_word hc,
      wordRuns_cons_word hc, wordRuns_cons_word hc]
    have hcomp : (isWordChar ∘ cleanChar) = isWordChar := funext cleanChar_word
    congr 1
    · rw [List.takeWhile_map, hcomp,
        map_id_of_fix fun x hx => cleanChar_fix_word (List.mem_takeWhile_imp hx)]
    · rw [List.dropWhile_map, hcomp]
      exact ih
  | case3 c rest hc ih =>
    have hc' : isWordChar c = false := by rwa [Bool.not_eq_true] at hc
    rw [punctClean, List.map_cons,
      wordRuns_cons_notword (by rw [cleanChar_word, hc']),
      wordRuns_cons_notword hc']
    exact ih

theorem word_space_char : isWordChar ' ' = false := by decide

theorem collapseWs_singleton (c : Char) :
    collapseWs [c] = if isSpaceChar c = true then [' '] else [c] := by
  conv_lhs => rw [collapseWs]

theorem collapseWs_cons2 (c d : Char) (rest : List Char) :
    collapseWs (c :: d :: rest) =
      if isSpaceChar c = true then
        (if isSpaceChar d = true then collapseWs (d :: rest)
         else ' ' :: collapseWs (d :: rest))
      else c :: collapseWs (d :: rest) := by
  conv_lhs => rw [collapseWs]

theorem collapseWs_cons_nonspace {c : Char} {rest : List Char}
    (h : isSpaceChar c = false) : collapseWs (c :: rest) = c :: collapseWs rest := by
  cases rest with
  | nil =>
    rw [collapseWs_singleton, h]
    simp only [Bool.false_eq_true, if_false]
    rfl
  | cons d t =>
    rw [collapseWs_cons2, h]
    simp only [Bool.false_eq_true, if_false]

/-- `takeWhile` of a list with a non-word head is empty. -/
theorem takeWhile_word_cons_not {c : Char} (rest : List Char)
    (h : isWordChar c = false) : (c :: rest).takeWhile isWordChar = [] := by
  rw [List.takeWhile_cons, h]
  simp only [Bool.false_eq_true, if_false]

/-- `dropWhile` of a list with a non-word head is the list itself. -/
theorem dropWhile_word_cons_not {c : Char} (rest : List Char)
    (h : isWordChar c = false) : (c :: rest).dropWhile isWordChar = c :: rest := by
  rw [List.dropWhile_cons, h]
  simp only [Bool.false_eq_true, if_false]

theorem takeWhile_word_cons_yes {c : Char} (rest : List Char)
    (h : isWordChar c = true) :
    (c :: rest).takeWhile isWordChar = c :: rest.takeWhile isWordChar := by
  rw [List.takeWhile_cons, h]
  simp only [if_true]

theorem dropWhile_word_cons_yes {c : Char} (rest : List Char)
    (h : isWordChar c = true) :
    (c :: rest).dropWhile isWordChar = rest.dropWhile isWordChar := by
  rw [List.dropWhile_cons, h]
  simp only [if_true]

theorem takeWhile_word_collapseWs (l : List Char) :
    (collapseWs l).takeWhile isWordChar = l.takeWhile isWordChar := by
  induction l using collapseWs.induct with
  | case1 => rfl
  | case2 c hc =>
    rw [collapseWs_singleton, if_pos hc, takeWhile_word_cons_not _ word_space_char,
      takeWhile_word_cons_not _ (not_word_of_space hc)]
  | case3 c hc =>
    rw [collapseWs_cons_nonspace (by rwa [Bool.not_eq_true] at hc)]
    rfl
  | case4 c d rest hc hd ih =>
    rw [collapseWs_cons2, if_pos hc, if_pos hd, ih,
      takeWhile_word_cons_not _ (not_word_of_space hd),
      takeWhile_word_cons_not _ (not_word_of_space hc)]
  | case5 c d rest hc hd ih =>
    rw [collapseWs_cons2, if_pos hc, if_neg hd,
      takeWhile_word_cons_not _ word_space_char,
      takeWhile_word_cons_not _ (not_word_of_space hc)]
  | case6 c d rest hc ih =>
    have hc' : isSpaceChar c = false := by rwa [Bool.not_eq_true] at hc
    rw [collapseWs_cons_nonspace hc']
    cases hw : isWordChar c
    · rw [takeWhile_word_cons_not _ hw, takeWhile_word_cons_not _ hw]
    · rw [takeWhile_word_cons_yes _ hw, takeWhile_word_cons_yes _ hw, ih]

theorem dropWhile_word_collapseWs (l : List Char) :
    (collapseWs l).dropWhile isWordChar = collapseWs (l.dropWhile isWordChar) := by
  induction l using collapseWs.induct with
  | case1 => rfl
  | case2 c hc =>
    rw [collapseWs_singleton, if_pos hc, dropWhile_word_cons_not _ word_space_char,
      dropWhile_word_cons_not _ (not_word_of_space hc),
      collapseWs_singleton, if_pos hc]
  | case3 c hc =>
    have hc' : isSpaceChar c = false := by rwa [Bool.not_eq_true] at hc
    rw [collapseWs_cons_nonspace hc']
    cases hw : isWordChar c
    · rw [dropWhile_word_cons_not _ hw, dropWhile_word_cons_not _ hw,
        collapseWs_cons_nonspace hc']
    · rw [dropWhile_word_cons_yes _ hw, dropWhile_word_cons_yes _ hw]
      rfl
  | case4 c d rest hc hd ih =>
    rw [collapseWs_cons2, if_pos hc, if_pos hd, ih,
      dropWhile_word_cons_not _ (not_word_of_space hd),
      dropWhile_word_cons_not _ (not_word_of_space hc),
      collapseWs_cons2, if_pos hc, if_pos hd]
  | case5 c d rest hc hd ih =>
    rw [collapseWs_cons2, if_pos hc, if_neg hd,
      dropWhile_word_cons_not _ word_space_char,
      dropWhile_word_cons_not _ (not_word_of_space hc),
      collapseWs_cons2, if_pos hc, if_neg hd]
  | case6 c d rest hc ih =>
    have hc' : isSpaceChar c = false := by rwa [Bool.not_eq_true] at hc
    rw [collapseWs_cons_nonspace hc']
    cases hw : isWordChar c
    · rw [dropWhile_word_cons_not _ hw, dropWhile_word_cons_not _ hw,
        collapseWs_cons_nonspace hc']
    · rw [dropWhile_word_cons_yes _ hw, dropWhile_word_cons_yes _ hw, ih]

theorem wordRuns_collapseWs (l : List Char) :
    wordRuns (collapseWs l) = wordRuns l := by
  induction l using wordRuns.induct with
  | case1 => rfl
  | case2 c rest hc ih =>
    rw [collapseWs_cons_nonspace (not_space_of_word hc),
      wordRuns_cons_word hc, wordRuns_cons_word hc,
      takeWhile_word_collapseWs, dropWhile_word_collapseWs, ih]
  | case3 c rest hc ih =>
    have hc' : isWordChar c = false := by rwa [Bool.not_eq_true] at hc
    by_cases hs : isSpaceChar c = true
    · cases rest with
      | nil =>
        rw [collapseWs_singleton, if_pos hs, wordRuns_cons_notword word_space_char,
          wordRuns_nil, wordRuns_cons_notword hc', wordRuns_nil]
      | cons d t =>
        rw [collapseWs_cons2, if_pos hs]
        by_cases hd : isSpaceChar d = true
        · rw [if_pos hd, wordRuns_cons_notword hc']
          exact ih
        · rw [if_neg hd, wordRuns_cons_notword word_space_char,
            wordRuns_cons_notword hc']
          exact ih
    · rw [collapseWs_cons_nonspace (by rwa [Bool.not_eq_true] at hs),
        wordRuns_cons_notword hc', wordRuns_cons_notword hc']
      exact ih

theorem rtrim_cons (c : Char) (rest : List Char) :
    rtrim (c :: rest) =
      if rtrim rest = [] && isSpaceChar c then [] else c :: rtrim rest := by
  rw [rtrim]

theorem wordRuns_of_rtrim_nil : ∀ {l : List Char}, rtrim l = [] → wordRuns l = [] := by
  intro l
  induction l with
  | nil => intro _; exact wordRuns_nil
  | cons c rest ih =>
    intro h
    rw [rtrim_cons] at h
    by_cases hb : (rtrim rest = [] && isSpaceChar c) = true
    · rw [Bool.and_eq_true, decide_eq_true_eq] at hb
      rw [wordRuns_cons_notword (not_word_of_space hb.2)]
      exact ih hb.1
    · rw [if_neg hb] at h
      exact absurd h (List.cons_ne_nil _ _)

theorem takeWhile_word_rtrim (l : List Char) :
    (rtrim l).takeWhile isWordChar = l.takeWhile isWordChar := by
  induction l with
  | nil => rfl
  | cons c rest ih =>
    rw [rtrim_cons]
    by_cases hb : (rtrim rest = [] && isSpaceChar c) = true
    · rw [if_pos hb]
      rw [Bool.and_eq_true, decide_eq_true_eq] at hb
      rw [takeWhile_word_cons_not _ (not_word_of_space hb.2)]
      rfl
    · rw [if_neg hb]
      cases hw : isWordChar c
      · rw [takeWhile_word_cons_not _ hw, takeWhile_word_cons_not _ hw]
      · rw [takeWhile_word_cons_yes _ hw, takeWhile_word_cons_yes _ hw, ih]

theorem dropWhile_word_rtrim (l : List Char) :
    (rtrim l).dropWhile isWordChar = rtrim (l.dropWhile isWordChar) := by
  induction l with
  | nil => rfl
  | cons c rest ih =>
    rw [rtrim_cons]
    by_cases hb : (rtrim rest = [] && isSpaceChar c) = true
    · rw [if_pos hb]
      have hb' := hb
      rw [Bool.and_eq_true, decide_eq_true_eq] at hb'
      rw [dropWhile_word_cons_not _ (not_word_of_space hb'.2),
        rtrim_cons, if_pos hb]
      rfl
    · rw [if_neg hb]
      cases hw : isWordChar c
      · rw [dropWhile_word_cons_not _ hw, dropWhile_word_cons_not _ hw,
          rtrim_cons, if_neg hb]
      · rw [dropWhile_word_cons_yes _ hw, dropWhile_word_cons_yes _ hw, ih]

theorem wordRuns_rtrim (l : List Char) : wordRuns (rtrim l) = wordRuns l := by
  induction l using wordRuns.induct with
  | case1 => rfl
  | case2 c rest hc ih =>
    have hb : (rtrim rest = [] && isSpaceChar c) = false := by
      rw [not_space_of_word hc, Bool.and_false]
    rw [rtrim_cons, hb]
    simp only [Bool.false_eq_true, if_false]
    rw [wordRuns_cons_word hc, wordRuns_cons_word hc,
      takeWhile_word_rtrim, dropWhile_word_rtrim, ih]
  | case3 c rest hc ih =>
    have hc' : isWordChar c = false := by rwa [Bool.not_eq_true] at hc
    rw [rtrim_cons]
    by_cases hb : (rtrim rest = [] && isSpaceChar c) = true
    · rw [if_pos hb]
      rw [Bool.and_eq_true, decide_eq_true_eq] at hb
      rw [wordRuns_nil, wordRuns_cons_notword hc', wordRuns_of_rtrim_nil hb.1]
    · rw [if_neg hb, wordRuns_cons_notword hc', wordRuns_cons_notword hc']
      exact ih

theorem wordRuns_dropSpace (l : List Char) :
    wordRuns (l.dropWhile isSpaceChar) = wordRuns l := by
  induction l with
  | nil => rfl
  | cons c rest ih =>
    rw [List.dropWhile_cons]
    cases hs : isSpaceChar c
    · simp only [Bool.false_eq_true, if_false]
    · simp only [if_true]
      rw [wordRuns_cons_notword (not_word_of_space hs)]
      exact ih

theorem wordRuns_trimChars (l : List Char) :
    wordRuns (trimChars l) = wordRuns l := by
  rw [trimChars, wordRuns_rtrim, wordRuns_dropSpace]

/-- Every run of a normalized string is `replaceRun`-stable. -/
theorem wordRuns_normalize_stable (l : List Char) :
    ∀ r ∈ wordRuns (normalizeChars l), replaceRun r = r := by
  intro r hr
  rw [normalizeChars, wordRuns_trimChars, wordRuns_collapseWs,
    wordRuns_punctClean] at hr
  obtain ⟨r₀, rfl⟩ := telecomAux_runs _ [] (by simp) r hr
  exact replaceRun_replaceRun r₀

/-! ## Character-level invariants of a normalized string -/

theorem mem_ampReplace {c : Char} {l : List Char} (h : c ∈ ampReplace l) :
    c ∈ l ∨ c ∈ ['a', 'n', 'd'] := by
  rw [ampReplace, List.mem_flatMap] at h
  obtain ⟨a, ha, hc⟩ := h
  by_cases hamp : a = '&'
  · rw [if_pos hamp] at hc; exact Or.inr hc
  · rw [if_neg hamp, List.mem_singleton] at hc
    exact Or.inl (hc ▸ ha)

theorem mem_telecomAux :
    ∀ (l acc : List Char) {c : Char}, c ∈ telecomAux acc l →
      c ∈ acc ∨ c ∈ l ∨ c ∈ "communications".data := by
  intro l
  induction l with
  | nil =>
    intro acc c h
    rw [telecomAux] at h
    rcases replaceRun_mem h with h | h
    · exact Or.inl (List.mem_reverse.mp h)
    · exact Or.inr (Or.inr h)
  | cons d rest ih =>
    intro acc c h
    rw [telecomAux] at h
    by_cases hd : isWordChar d = true
    · rw [if_pos hd] at h
      rcases ih (d :: acc) h with h | h | h
      · rcases List.mem_cons.mp h with h | h
        · exact Or.inr (Or.inl (h ▸ List.mem_cons_self d rest))
        · exact Or.inl h
      · exact Or.inr (Or.inl (List.mem_cons_of_mem d h))
      · exact Or.inr (Or.inr h)
    · rw [if_neg hd] at h
      rcases List.mem_append.mp h with h | h
      · rcases replaceRun_mem h with h | h
        · exact Or.inl (List.mem_reverse.mp h)
        · exact Or.inr (Or.inr h)
      · rcases List.mem_cons.mp h with h | h
        · exact Or.inr (Or.inl (h ▸ List.mem_cons_self d rest))
        · rcases ih [] h with h | h | h
          · exact absurd h (List.not_mem_nil c)
          · exact Or.inr (Or.inl (List.mem_cons_of_mem d h))
          · exact Or.inr (Or.inr h)

theorem mem_punctClean {c : Char} {l : List Char} (h : c ∈ punctClean l) :
    c ∈ l ∨ c = ' ' := by
  rw [punctClean, List.mem_map] at h
  obtain ⟨a, ha, hc⟩ := h
  rw [cleanChar] at hc
  by_cases hk : (isWordChar a || isSpaceChar a) = true
  · rw [if_pos hk] at hc; exact Or.inl (hc ▸ ha)
  · rw [if_neg hk] at hc; exact Or.inr hc.symm

theorem mem_punctClean_class {c : Char} {l : List Char} (h : c ∈ punctClean l) :
    isWordChar c = true ∨ isSpaceChar c = true := by
  rw [punctClean, List.mem_map] at h
  obtain ⟨a, ha, hc⟩ := h
  rw [cleanChar] at hc
  by_cases hk : (isWordChar a || isSpaceChar a) = true
  · rw [if_pos hk] at hc
    rw [Bool.or_eq_true] at hk
    rcases hk with hk | hk
    · exact Or.inl (hc ▸ hk)
    · exact Or.inr (hc ▸ hk)
  · rw [if_neg hk] at hc
    rw [← hc]
    exact Or.inr (by decide)

theorem mem_collapseWs :
    ∀ {l : List Char} {c : Char}, c ∈ collapseWs l →
      (c ∈ l ∧ isSpaceChar c = false) ∨ c = ' ' := by
  intro l
  induction l using collapseWs.induct with
  | case1 => intro c h; exact absurd h (List.not_mem_nil c)
  | case2 a ha =>
    intro c h
    rw [collapseWs_singleton, if_pos ha, List.mem_singleton] at h
    exact Or.inr h
  | case3 a ha =>
    intro c h
    have ha' : isSpaceChar a = false := by rwa [Bool.not_eq_true] at ha
    rw [collapseWs_singleton, ha'] at h
    simp only [Bool.false_eq_true, if_false, List.mem_singleton] at h
    exact Or.inl ⟨h ▸ List.mem_singleton.mpr rfl, h ▸ ha'⟩
  | case4 a d rest ha hd ih =>
    intro c h
    rw [collapseWs_cons2, if_pos ha, if_pos hd] at h
    rcases ih h with ⟨hm, hs⟩ | hsp
    · exact Or.inl ⟨List.mem_cons_of_mem a hm, hs⟩
    · exact Or.inr hsp
  | case5 a d rest ha hd ih =>
    intro c h
    rw [collapseWs_cons2, if_pos ha, if_neg hd] at h
    rcases List.mem_cons.mp h with h | h
    · exact Or.inr h
    · rcases ih h with ⟨hm, hs⟩ | hsp
      · exact Or.inl ⟨List.mem_cons_of_mem a hm, hs⟩
      · exact Or.inr hsp
  | case6 a d rest ha ih =>
    intro c h
    have ha' : isSpaceChar a = false := by rwa [Bool.not_eq_true] at ha
    rw [collapseWs_cons_nonspace ha'] at h
    rcases List.mem_cons.mp h with h | h
    · exact Or.inl ⟨h ▸ List.mem_cons_self a _, h ▸ ha'⟩
    · rcases ih h with ⟨hm, hs⟩ | hsp
      · exact Or.inl ⟨List.mem_cons_of_mem a hm, hs⟩
      · exact Or.inr hsp

theorem rtrim_prefix_self (l : List Char) : rtrim l <+: l := by
  induction l with
  | nil => exact List.nil_prefix
  | cons c rest ih =>
    rw [rtrim_cons]
    by_cases hb : (rtrim rest = [] && isSpaceChar c) = true
    · rw [if_pos hb]; exact List.nil_prefix
    · rw [if_neg hb]; exact List.cons_prefix_cons.mpr ⟨rfl, ih⟩

theorem mem_rtrim {c : Char} {l : List Char} (h : c ∈ rtrim l) : c ∈ l :=
  List.Sublist.mem h (rtrim_prefix_self l).sublist

theorem mem_dropWhile_space {c : Char} {l : List Char}
    (h : c ∈ l.dropWhile isSpaceChar) : c ∈ l :=
  List.Sublist.mem h (List.dropWhile_sublist _)

/-- Every character of a normalized string is a word char or a space. -/
theorem normalizeChars_class {l : List Char} {c : Char} (h : c ∈ normalizeChars l) :
    isWordChar c = true ∨ c = ' ' := by
  rw [normalizeChars, trimChars] at h
  have h1 := mem_dropWhile_space (mem_rtrim h)
  rcases mem_collapseWs h1 with ⟨h2, hsp⟩ | hsp
  · rcases mem_punctClean_class h2 with hw | hs
    · exact Or.inl hw
    · rw [hs] at hsp; exact absurd hsp (by decide)
  · exact Or.inr hsp

/-- Every character of a normalized string is fixed by lowercasing. -/
theorem normalizeChars_lower {l : List Char} {c : Char}
    (h : c ∈ normalizeChars l) : lowerChar c = c := by
  rw [normalizeChars, trimChars] at h
  have h1 := mem_dropWhile_space (mem_rtrim h)
  rcases mem_collapseWs h1 with ⟨h2, _⟩ | hsp
  · rcases mem_punctClean h2 with h3 | hsp
    · rw [telecomReplace] at h3
      rcases mem_telecomAux _ [] h3 with h4 | h4 | h4
      · exact absurd h4 (List.not_mem_nil c)
      · rcases mem_ampReplace h4 with h5 | h5
        · rw [List.mem_map] at h5
          obtain ⟨a, _, rfl⟩ := h5
          exact lowerChar_fix a
        · fin_cases h5 <;> decide
      · fin_cases h4 <;> decide
    · rw [hsp]; decide
  · rw [hsp]; decide

/-! ## The no-adjacent-spaces invariant -/

def okPair (a b : Char) : Prop := ¬(isSpaceChar a = true ∧ isSpaceChar b = true)

theorem chain_collapseWs (l : List Char) : (collapseWs l).Chain' okPair := by
  induction l using collapseWs.induct with
  | case1 => exact List.chain'_nil
  | case2 a ha =>
    rw [collapseWs_singleton, if_pos ha]
    exact List.chain'_singleton _
  | case3 a ha =>
    have ha' : isSpaceChar a = false := by rwa [Bool.not_eq_true] at ha
    rw [collapseWs_singleton, ha']
    simp only [Bool.false_eq_true, if_false]
    exact List.chain'_singleton _
  | case4 a d rest ha hd ih =>
    rw [collapseWs_cons2, if_pos ha, if_pos hd]
    exact ih
  | case5 a d rest ha hd ih =>
    have hd' : isSpaceChar d = false := by rwa [Bool.not_eq_true] at hd
    rw [collapseWs_cons2, if_pos ha, if_neg hd]
    rw [List.chain'_cons']
    refine ⟨?_, ih⟩
    intro y hy
    rw [collapseWs_cons_nonspace hd'] at hy
    simp only [List.head?_cons, Option.mem_def, Option.some.injEq] at hy
    intro hcontr
    rw [← hy, hd'] at hcontr
    exact absurd hcontr.2 (by decide)
  | case6 a d rest ha ih =>
    have ha' : isSpaceChar a = false := by rwa [Bool.not_eq_true] at ha
    rw [collapseWs_cons_nonspace ha', List.chain'_cons']
    refine ⟨?_, ih⟩
    intro y _ hcontr
    rw [ha'] at hcontr
    exact absurd hcontr.1 (by decide)

theorem chain_normalizeChars (l : List Char) :
    (normalizeChars l).Chain' okPair := by
  rw [normalizeChars, trimChars]
  exact List.Chain'.prefix
    (List.Chain'.suffix (chain_collapseWs _) (List.dropWhile_suffix _))
    (rtrim_prefix_self _)

/-! ## The pipeline stages are the identity on normalized strings -/

theorem ampReplace_id {l : List Char} (h : ∀ c ∈ l, c ≠ '&') :
    ampReplace l = l := by
  induction l with
  | nil => rfl
  | cons c rest ih =>
    rw [ampReplace, List.flatMap_cons, if_neg (h c (List.mem_cons_self c rest)),
      List.singleton_append]
    rw [ampReplace] at ih
    rw [ih fun x hx => h x (List.mem_cons_of_mem c hx)]

theorem punctClean_id {l : List Char}
    (h : ∀ c ∈ l, isWordChar c = true ∨ c = ' ') : punctClean l = l := by
  apply map_id_of_fix
  intro c hc
  rcases h c hc with hw | hs
  · exact cleanChar_fix_word hw
  · rw [hs]; decide

theorem telecomReplace_id {l : List Char}
    (h : ∀ r ∈ wordRuns l, replaceRun r = r) : telecomReplace l = l := by
  rw [telecomReplace, telecomAux_id l [] (by simp) (by simpa using h)]
  rfl

theorem collapseWs_id :
    ∀ {l : List Char}, (∀ c ∈ l, isSpaceChar c = true → c = ' ') →
      l.Chain' okPair → collapseWs l = l := by
  intro l
  induction l using collapseWs.induct with
  | case1 => intro _ _; rfl
  | case2 a ha =>
    intro hsp _
    rw [collapseWs_singleton, if_pos ha,
      hsp a (List.mem_singleton.mpr rfl) ha]
  | case3 a ha =>
    intro _ _
    have ha' : isSpaceChar a = false := by rwa [Bool.not_eq_true] at ha
    rw [collapseWs_singleton, ha']
    simp only [Bool.false_eq_true, if_false]
  | case4 a d rest ha hd ih =>
    intro _ hch
    exact absurd ⟨ha, hd⟩ (List.chain'_cons.mp hch).1
  | case5 a d rest ha hd ih =>
    intro hsp hch
    rw [collapseWs_cons2, if_pos ha, if_neg hd,
      hsp a (List.mem_cons_self a _) ha,
      ih (fun x hx => hsp x (List.mem_cons_of_mem a hx))
        (List.chain'_cons.mp hch).2]
  | case6 a d rest ha ih =>
    intro hsp hch
    have ha' : isSpaceChar a = false := by rwa [Bool.not_eq_true] at ha
    rw [collapseWs_cons_nonspace ha',
      ih (fun x hx => hsp x (List.mem_cons_of_mem a hx))
        (List.chain'_cons.mp hch).2]

theorem rtrim_rtrim (l : List Char) : rtrim (rtrim l) = rtrim l := by
  induction l with
  | nil => rfl
  | cons c rest ih =>
    rw [rtrim_cons]
    by_cases hb : (rtrim rest = [] && isSpaceChar c) = true
    · rw [if_pos hb]; rfl
    · rw [if_neg hb, rtrim_cons, ih, if_neg hb]

theorem rtrim_head (l : List Char) :
    (rtrim l).head? = l.head? ∨ rtrim l = [] := by
  cases l with
  | nil => exact Or.inr rfl
  | cons c rest =>
    rw [rtrim_cons]
    by_cases hb : (rtrim rest = [] && isSpaceChar c) = true
    · rw [if_pos hb]; exact Or.inr rfl
    · rw [if_neg hb]; exact Or.inl rfl

/-- A normalized string has no leading whitespace. -/
theorem normalizeChars_dropSpace_id (l : List Char) :
    (normalizeChars l).dropWhile isSpaceChar = normalizeChars l := by
  apply dropWhile_nonhead
  intro c hc
  rw [normalizeChars, trimChars] at hc
  rcases rtrim_head ((collapseWs (punctClean (telecomReplace
      (ampReplace (l.map lowerChar))))).dropWhile isSpaceChar) with h | h
  · rw [h] at hc
    exact head_dropWhile hc
  · rw [h] at hc
    exact absurd hc (by simp)

/-- A normalized string has no trailing whitespace. -/
theorem normalizeChars_rtrim_id (l : List Char) :
    rtrim (normalizeChars l) = normalizeChars l := by
  rw [normalizeChars, trimChars]
  exact rtrim_rtrim _

/-! ## Idempotence of the normalizer -/

theorem normalizeChars_idem (l : List Char) :
    normalizeChars (normalizeChars l) = normalizeChars l := by
  set y := normalizeChars l with hy
  have hclass : ∀ c ∈ y, isWordChar c = true ∨ c = ' ' :=
    fun c hc => normalizeChars_class hc
  have hlow : y.map lowerChar = y :=
    map_id_of_fix fun c hc => normalizeChars_lower hc
  have hamp : ampReplace y = y := by
    apply ampReplace_id
    intro c hc hne
    rcases hclass c hc with hw | hs
    · rw [hne] at hw; exact absurd hw (by decide)
    · rw [hne] at hs; exact absurd hs (by decide)
  have htel : telecomReplace y = y :=
    telecomReplace_id (wordRuns_normalize_stable l)
  have hpunct : punctClean y = y := punctClean_id hclass
  have hcoll : collapseWs y = y := by
    apply collapseWs_id
    · intro c hc hs
      rcases hclass c hc with hw | h'
      · rw [not_space_of_word hw] at hs; exact absurd hs (by decide)
      · exact h'
    · exact chain_normalizeChars l
  have hdrop : y.dropWhile isSpaceChar = y := normalizeChars_dropSpace_id l
  have hrt : rtrim y = y := normalizeChars_rtrim_id l
  rw [normalizeChars, hlow, hamp, htel, hpunct, hcoll, trimChars, hdrop, hrt]

/-! ## `MatchingUtils.cleanConferenceTitle` (matching.js)

Each `.replace` of the source becomes one explicit pass.  Anchored patterns
(`^...`) apply at the start only; `\b`-scans are implemented by a left-to-right
scanner that carries the previous character (for the word boundary), exactly
as the JS regex engine consumes non-overlapping matches. -/

/-- `.replace(/^Proceedings of the\s+/gi, '')`. -/
def stripProceedings (l : List Char) : List Char :=
  if (l.take 18).map lowerChar = "proceedings of the".data ∧
     (l.drop 18).takeWhile isSpaceChar ≠ [] then
    (l.drop 18).dropWhile isSpaceChar
  else l

/-- `.replace(/^[A-Z]+\s+\d{4}\s+-\s+/gi, '')` (letters of either case under
the `i` flag). -/
def stripLeadingCodeYear (l : List Char) : List Char :=
  let letters := l.takeWhile isAsciiLetter
  let r1 := l.dropWhile isAsciiLetter
  let sp1 := r1.takeWhile isSpaceChar
  let r2 := r1.dropWhile isSpaceChar
  let digits := (r2.take 4)
  let r3 := r2.drop 4
  let sp2 := r3.takeWhile isSpaceChar
  let r4 := r3.dropWhile isSpaceChar
  if letters ≠ [] ∧ sp1 ≠ [] ∧ digits.length = 4 ∧ digits.all isDigitChar ∧
     sp2 ≠ [] ∧ r4.head? = some '-' ∧ r4.tail.takeWhile isSpaceChar ≠ [] then
    r4.tail.dropWhile isSpaceChar
  else l

/-- A `\b\d{4}\b` match is a maximal `\w`-run of exactly four digits;
such a run is removed (replaced by the empty string). -/
def yearRun (r : List Char) : List Char :=
  if r.length = 4 ∧ r.all isDigitChar then [] else r

/-- Worker for `.replace(/\b\d{4}\b/g, '')`, accumulating the current
`\w`-run reversed, as in `telecomAux`. -/
def removeYearsAux (acc : List Char) : List Char → List Char
  | [] => yearRun acc.reverse
  | c :: rest =>
    if isWordChar c then removeYearsAux (c :: acc) rest
    else yearRun acc.reverse ++ c :: removeYearsAux [] rest

/-- `.replace(/\b\d{4}\b/g, '')`. -/
def removeYears (l : List Char) : List Char := removeYearsAux [] l

/-- After `\b\d{1,2}` has consumed `consumed` characters, try to match
`(st|nd|rd|th)\s+(Annual\s+)?` at `l` and return the total match length. -/
def ordTail (consumed : Nat) (l : List Char) : Option Nat :=
  if (l.take 2).map lowerChar = "st".data ∨ (l.take 2).map lowerChar = "nd".data ∨
     (l.take 2).map lowerChar = "rd".data ∨ (l.take 2).map lowerChar = "th".data then
    let r := l.drop 2
    let sp := r.takeWhile isSpaceChar
    if sp ≠ [] then
      let r2 := r.dropWhile isSpaceChar
      if (r2.take 6).map lowerChar = "annual".data ∧
         (r2.drop 6).takeWhile isSpaceChar ≠ [] then
        some (consumed + 2 + sp.length + 6 + ((r2.drop 6).takeWhile isSpaceChar).length)
      else some (consumed + 2 + sp.length)
    else none
  else none

/-- Match `\b\d{1,2}(st|nd|rd|th)\s+(Annual\s+)?` at the head of `l`
(`prev` is the character before `l`, for the `\b`); returns the number of
characters consumed.  `\d{1,2}` is greedy: two digits are tried first. -/
def ordMatchAt (prev : Option Char) (l : List Char) : Option Nat :=
  let boundary := match prev with | none => true | some p => !isWordChar p
  if boundary then
    match l with
    | c :: rest =>
      if isDigitChar c then
        match rest with
        | d :: rest2 =>
          if isDigitChar d then
            match ordTail 2 rest2 with
            | some n => some n
            | none => ordTail 1 rest
          else ordTail 1 rest
        | [] => none
      else none
    | [] => none
  else none

/-- Match `\bAnnual\s+` at the head of `l`. -/
def annualMatchAt (prev : Option Char) (l : List Char) : Option Nat :=
  let boundary := match prev with | none => true | some p => !isWordChar p
  if boundary = true ∧ (l.take 6).map lowerChar = "annual".data ∧
     (l.drop 6).takeWhile isSpaceChar ≠ [] then
    some (6 + ((l.drop 6).takeWhile isSpaceChar).length)
  else none

/-- Left-to-right scan deleting every match found by `m` (the JS
`String.replace` with a `/g` regex and an empty replacement); `m` returns
the number of characters a match consumes.  The fuel is the list length;
every step consumes at least one character, so it never runs out. -/
def scanRemove (m : Option Char → List Char → Option Nat) :
    Nat → Option Char → List Char → List Char
  | 0, _, l => l
  | _ + 1, _, [] => []
  | fuel + 1, prev, c :: rest =>
    match m prev (c :: rest) with
    | some n =>
      scanRemove m fuel (some (List.getLastD (List.take n (c :: rest)) c))
        (List.drop n (c :: rest))
    | none => c :: scanRemove m fuel (some c) rest

/-- `.replace(/\b\d{1,2}(st|nd|rd|th)\s+(Annual\s+)?/gi, '')`. -/
def removeOrdinals (l : List Char) : List Char := scanRemove ordMatchAt l.length none l

/-- `.replace(/\bAnnual\s+/gi, '')`. -/
def removeAnnual (l : List Char) : List Char := scanRemove annualMatchAt l.length none l

/-- Does `l` match the trailing-code pattern in full: whitespace, a
hyphen, whitespace, letters, whitespace, an optional apostrophe, two to
four digits, optional trailing whitespace up to the end of the string? -/
def trailMatch (l : List Char) : Bool :=
  let r1 := l.dropWhile isSpaceChar
  l.takeWhile isSpaceChar ≠ [] &&
    (match r1 with
     | '-' :: r2 =>
       let sp2 := r2.takeWhile isSpaceChar
       let r3 := r2.dropWhile isSpaceChar
       sp2 ≠ [] &&
         (let letters := r3.takeWhile isAsciiLetter
          let r4 := r3.dropWhile isAsciiLetter
          letters ≠ [] &&
            (let sp3 := r4.takeWhile isSpaceChar
             let r5 := r4.dropWhile isSpaceChar
             sp3 ≠ [] &&
               (let r6 := if r5.head? = some (Char.ofNat 39) then r5.tail else r5
                let digits := r6.takeWhile isDigitChar
                let r7 := r6.dropWhile isDigitChar
                (2 ≤ digits.length && digits.length ≤ 4) && r7.all isSpaceChar)))
     | _ => false)

/-- The sixth replace of the cleaner (trailing code/year, anchored at the
end): the leftmost suffix matching the pattern of `trailMatch` (which
necessarily extends to the end) is deleted. -/
def stripTrailing : List Char → List Char
  | [] => []
  | c :: rest => if trailMatch (c :: rest) then [] else c :: stripTrailing rest

/-- `MatchingUtils.cleanConferenceTitle`. -/
def cleanConferenceTitle (l : List Char) : List Char :=
  trimChars (collapseWs (stripTrailing (removeAnnual (removeOrdinals
    (removeYears (stripLeadingCodeYear (stripProceedings l)))))))

/-! ## `MatchingUtils.extractAcronym` (matching.js)

`title.match(/\(([A-Z][A-Z0-9&]+)\)/)`: the first parenthesised run of an
uppercase letter followed by one or more of `[A-Z0-9&]`. -/

def isAcroChar (c : Char) : Bool := isUpperChar c || isDigitChar c || c = '&'

def extractAcronym : List Char → Option (List Char)
  | [] => none
  | c :: rest =>
    if c = '(' then
      match rest with
      | d :: rest2 =>
        if isUpperChar d then
          let run := rest2.takeWhile isAcroChar
          let after := rest2.dropWhile isAcroChar
          if run ≠ [] ∧ after.head? = some ')' then some (d :: run)
          else extractAcronym rest
        else extractAcronym rest
      | [] => none
    else extractAcronym rest

/-! ## Tokenization and ratio comparisons shared by the matchers -/

/-- Worker for JS `String.prototype.split(' ')`. -/
def splitSpaceAux (cur : List Char) : List Char → List (List Char)
  | [] => [cur.reverse]
  | c :: rest =>
    if c = ' ' then cur.reverse :: splitSpaceAux [] rest
    else splitSpaceAux (c :: cur) rest

/-- JS `title.split(' ')`. -/
def splitSpace (l : List Char) : List (List Char) := splitSpaceAux [] l

/-- `.split(' ').filter(function(w) { return w.length > 3; })`. -/
def sigWords (l : List Char) : List (List Char) :=
  (splitSpace l).filter fun w => 3 < w.length

/-- JS `m / n >= p / q` as evaluated by the matchers: when `n = 0` the
JS division yields `NaN` (or the explicit `: 0` guard of matching.js), and
the comparison is false; otherwise it is the exact rational comparison
(the thresholds 0.85 and 0.8 are modelled exactly). -/
def ratioGE (m n p q : Nat) : Bool := decide (n ≠ 0) && decide (p * n ≤ q * m)

/-- The per-key counting loop: how many of `keyWords` occur in
`searchWords` (`searchWords.indexOf(keyWords[k]) !== -1`). -/
def overlapCount (keyWords searchWords : List (List Char)) : Nat :=
  match keyWords with
  | [] => 0
  | w :: rest => (if searchWords.contains w then 1 else 0) + overlapCount rest searchWords

/-- JS `hay.indexOf(needle) !== -1`: contiguous substring test. -/
def hasSub (hay needle : List Char) : Bool :=
  needle.isPrefixOf hay ||
    (match hay with
     | [] => false
     | _ :: t => hasSub t needle)

/-! ## `MatchingUtils.matchCoreConference` (matching.js)

The table is the `coreRankings` object: an association list in insertion
order, each value carrying a rank and an optional acronym.  `for...in`
iteration with an early `return` is `List.find?`. -/

structure CoreEntry where
  rank : List Char
  acronym : Option (List Char)
deriving DecidableEq

/-- Strategy 1: exact normalized match. -/
def coreStrat1 (table : List (List Char × CoreEntry)) (nz : List Char) :
    Option (List Char) :=
  (table.find? fun kv => normalizeChars kv.1 == nz).map fun kv => kv.2.rank

/-- Strategy 2: CORE title (normalized, length > 20) inside the input. -/
def coreStrat2 (table : List (List Char × CoreEntry)) (nz : List Char) :
    Option (List Char) :=
  (table.find? fun kv =>
    let nc := normalizeChars kv.1
    hasSub nz nc && decide (20 < nc.length)).map fun kv => kv.2.rank

/-- Strategy 3: input (length > 20) inside the CORE title. -/
def coreStrat3 (table : List (List Char × CoreEntry)) (nz : List Char) :
    Option (List Char) :=
  (table.find? fun kv =>
    hasSub (normalizeChars kv.1) nz && decide (20 < nz.length)).map fun kv => kv.2.rank

/-- Strategy 4 acceptance: `coreWords.length >= 4 && matchCount /
coreWords.length >= 0.8`. -/
def coreOverlapAccept (zoteroWords : List (List Char)) (key : List Char) : Bool :=
  let coreWords := sigWords (normalizeChars key)
  let matchCount := overlapCount coreWords zoteroWords
  decide (4 ≤ coreWords.length) && ratioGE matchCount coreWords.length 4 5

/-- Strategy 4: word overlap. -/
def coreStrat4 (table : List (List Char × CoreEntry))
    (zoteroWords : List (List Char)) : Option (List Char) :=
  (table.find? fun kv => coreOverlapAccept zoteroWords kv.1).map fun kv => kv.2.rank

/-- Strategy 5: unique-acronym tiebreak, only for acronyms of length ≥ 4. -/
def coreStrat5 (table : List (List Char × CoreEntry))
    (acr : Option (List Char)) : Option (List Char) :=
  match acr with
  | some a =>
    if 4 ≤ a.length then
      let ms := table.filter fun kv => kv.2.acronym == some a
      if ms.length = 1 then ms.head?.map fun kv => kv.2.rank else none
    else none
  | none => none

/-- `MatchingUtils.matchCoreConference`: the five strategies in order,
first success wins. -/
def matchCoreConference (table : List (List Char × CoreEntry))
    (title : List Char) : Option (List Char) :=
  let normalizedZotero := normalizeChars (cleanConferenceTitle title)
  let zoteroAcronym := extractAcronym title
  let zoteroWords := sigWords normalizedZotero
  ((((coreStrat1 table normalizedZotero).or
      (coreStrat2 table normalizedZotero)).or
      (coreStrat3 table normalizedZotero)).or
      (coreStrat4 table zoteroWords)).or
      (coreStrat5 table zoteroAcronym)

/-! ## `SJRDatabase` (the registered journal matcher, src/unnamed/part_002)

Entries of `sjrRankings` carry a quartile and an SJR score; a successful
match returns `quartile + " " + sjr`. -/

structure SjrEntry where
  quartile : List Char
  sjr : List Char
deriving DecidableEq

/-- `sjrData.quartile + " " + sjrData.sjr`. -/
def sjrResult (e : SjrEntry) : List Char := e.quartile ++ ' ' :: e.sjr

/-- `SJRDatabase.matchExact`: case-insensitive comparison of the raw
title against the raw table key — no cleaning, no normalization. -/
def matchExact (table : List (List Char × SjrEntry)) (title : List Char) :
    Option (List Char) :=
  let normalizedSearch := title.map lowerChar
  (table.find? fun kv => kv.1.map lowerChar == normalizedSearch).map
    fun kv => sjrResult kv.2

/-- JS `sjrTitle.split(',')[0].trim()`. -/
def commaHead (l : List Char) : List Char :=
  trimChars (l.takeWhile fun c => c ≠ ',')

/-- `SJRDatabase.matchFuzzy`: cleaned+normalized input against the
comma-truncated normalized key, which must be longer than 10 chars. -/
def matchFuzzy (table : List (List Char × SjrEntry)) (title : List Char) :
    Option (List Char) :=
  let cleanedSearch := normalizeChars (cleanConferenceTitle title)
  (table.find? fun kv =>
    let cleanedSjr := normalizeChars (commaHead kv.1)
    cleanedSjr == cleanedSearch && decide (10 < cleanedSjr.length)).map
    fun kv => sjrResult kv.2

/-- `SJRDatabase.matchWordOverlap` acceptance for one table key: the key
is normalized in full (NOT comma-truncated), the input is cleaned and
normalized; thresholds: 5+ key tokens, 85% from the key side, 80% from
the search side. -/
def sjrOverlapAccept (title key : List Char) : Bool :=
  let cleanedSearch := normalizeChars (cleanConferenceTitle title)
  let searchWords := sigWords cleanedSearch
  let sjrWords := sigWords (normalizeChars key)
  let matchCount := overlapCount sjrWords searchWords
  decide (5 ≤ sjrWords.length) && ratioGE matchCount sjrWords.length 85 100 &&
    ratioGE matchCount searchWords.length 80 100

/-- `SJRDatabase.matchWordOverlap`. -/
def matchWordOverlap (table : List (List Char × SjrEntry)) (title : List Char) :
    Option (List Char) :=
  (table.find? fun kv => sjrOverlapAccept title kv.1).map fun kv => sjrResult kv.2

/-- `SJRDatabase.match`: exact, then fuzzy, then word overlap. -/
def sjrMatch (table : List (List Char × SjrEntry)) (title : List Char) :
    Option (List Char) :=
  ((matchExact table title).or (matchFuzzy table title)).or
    (matchWordOverlap table title)

/-! ## `MatchingUtils.matchSjrJournal` (the legacy journal matcher in
matching.js; it returns the entry itself) -/

def jsSjrStrat1 (table : List (List Char × SjrEntry)) (title : List Char) :
    Option SjrEntry :=
  let normalized := normalizeChars (title.map lowerChar)
  (table.find? fun kv => normalizeChars kv.1 == normalized).map fun kv => kv.2

def jsSjrStrat2 (table : List (List Char × SjrEntry)) (title : List Char) :
    Option SjrEntry :=
  let cleaned := normalizeChars (cleanConferenceTitle title)
  (table.find? fun kv =>
    let cleanedSJR := normalizeChars (commaHead kv.1)
    cleanedSJR == cleaned && decide (10 < cleaned.length)).map fun kv => kv.2

/-- matching.js strategy-3 acceptance: comma-truncated key, thresholds
5+ tokens and 85% on BOTH sides (`sjrOverlap >= 0.85 && searchOverlap >=
0.85`, each guarded by a `length > 0 ? ... : 0` ternary). -/
def jsSjrOverlapAccept (title key : List Char) : Bool :=
  let cleaned := normalizeChars (cleanConferenceTitle title)
  let words := sigWords cleaned
  let sjrWords := sigWords (normalizeChars (commaHead key))
  let matchCount := overlapCount sjrWords words
  decide (5 ≤ sjrWords.length) && ratioGE matchCount sjrWords.length 85 100 &&
    ratioGE matchCount words.length 85 100

def jsSjrStrat3 (table : List (List Char × SjrEntry)) (title : List Char) :
    Option SjrEntry :=
  (table.find? fun kv => jsSjrOverlapAccept title kv.1).map fun kv => kv.2

/-- `MatchingUtils.matchSjrJournal`. -/
def matchSjrJournalJs (table : List (List Char × SjrEntry)) (title : List Char) :
    Option SjrEntry :=
  ((jsSjrStrat1 table title).or (jsSjrStrat2 table title)).or
    (jsSjrStrat3 table title)

/-! ## `DatabaseRegistry` (src/unnamed/part_002)

The registry is a JS `Map` keyed by id: an insertion-ordered association
list where `set` on an existing key updates the value IN PLACE.  A matcher
is a function; since the registry never calls it, it is modelled by an
opaque handle (`Nat`).  JS truthiness in `register`:
`!config.id`/`!config.name` reject the empty string, `!config.matcher`
rejects a missing function; `config.prefKey || null` maps the empty string
to null, and `config.priority || 999` maps a MISSING priority — and also
the falsy priority 0 — to 999. -/

structure DBConfig where
  id : List Char
  name : List Char
  prefKey : Option (List Char)
  priority : Option Int
  matcher : Option Nat
deriving DecidableEq

structure StoredDB where
  id : List Char
  name : List Char
  prefKey : Option (List Char)
  priority : Int
  matcher : Nat
deriving DecidableEq

/-- The stored record built by `register` (with the `|| null` and
`|| 999` defaultings). -/
def storedOf (c : DBConfig) (m : Nat) : StoredDB :=
  { id := c.id, name := c.name,
    prefKey := match c.prefKey with
               | some k => if k = [] then none else some k
               | none => none,
    priority := match c.priority with
                | some p => if p = 0 then 999 else p
                | none => 999,
    matcher := m }

/-- `DatabaseRegistry.register`. -/
def register (s : List StoredDB) (c : DBConfig) : Except String (List StoredDB) :=
  match c.matcher with
  | none => Except.error "Database registration requires id, name, and matcher"
  | some m =>
    if c.id = [] ∨ c.name = [] then
      Except.error "Database registration requires id, name, and matcher"
    else if s.any fun e => e.id == c.id then
      Except.ok (s.map fun e => if e.id = c.id then storedOf c m else e)
    else
      Except.ok (s ++ [storedOf c m])

/-- Stable insertion into a priority-sorted list: the new element goes
before the first strictly-larger priority, after equal ones. -/
def insertByPriority (d : StoredDB) : List StoredDB → List StoredDB
  | [] => [d]
  | e :: rest =>
    if d.priority ≤ e.priority then d :: e :: rest else e :: insertByPriority d rest

/-- Stable ascending sort by priority.  ES2019 requires
`Array.prototype.sort` (comparator `a.priority - b.priority`) to be
stable, so this insertion sort computes the same list. -/
def sortByPriority : List StoredDB → List StoredDB
  | [] => []
  | d :: rest => insertByPriority d (sortByPriority rest)

/-- `DatabaseRegistry.getEnabledDatabases`: keep the databases whose
`prefKey` is null or whose preference is true, then sort by priority. -/
def getEnabledDatabases (prefs : List Char → Bool) (s : List StoredDB) :
    List StoredDB :=
  sortByPriority (s.filter fun d =>
    match d.prefKey with
    | none => true
    | some k => prefs k)

/-! ## `ManualOverrides` (src/src/actions/overrides.js)

The in-memory store is a JS `Map` from the lowercased-and-trimmed title to
the rank string.  `set`/`remove`/`get` all normalize the key the same way;
`load` parses the persisted JSON value (the parser is passed in as a
function returning `none` on a parse error, i.e. a JS exception). -/

/-- `publicationTitle.toLowerCase().trim()`. -/
def keyOf (t : List Char) : List Char := trimChars (t.map lowerChar)

/-- `ManualOverrides.set` (the in-memory `Map.set`; the write-through
`save()` persists the whole map and does not affect the map itself). -/
def ovSet (m : List (List Char × List Char)) (t r : List Char) :
    List (List Char × List Char) :=
  let k := keyOf t
  if m.any fun kv => kv.1 == k then
    m.map fun kv => if kv.1 = k then (k, r) else kv
  else m ++ [(k, r)]

/-- `ManualOverrides.remove` (`Map.delete`). -/
def ovRemove (m : List (List Char × List Char)) (t : List Char) :
    List (List Char × List Char) :=
  m.filter fun kv => !(kv.1 == keyOf t)

/-- `ManualOverrides.get` (`Map.get`; `undefined` is `none`). -/
def ovGet (m : List (List Char × List Char)) (t : List Char) :
    Option (List Char) :=
  (m.find? fun kv => kv.1 == keyOf t).map fun kv => kv.2

/-- `ManualOverrides.has`. -/
def ovHas (m : List (List Char × List Char)) (t : List Char) : Bool :=
  m.any fun kv => kv.1 == keyOf t

/-- The persistence collaborator: the single pref slot
`manualOverrides` (`none` = never written, JS `undefined`). -/
structure PrefsState where
  manualOverrides : Option (List Char)
deriving DecidableEq

/-- The read `getPref(manualOverrides) || default`: the stored value, with
the falsy values (`undefined` and the empty string) replaced by the
two-character empty-object text. -/
def prefData (st : PrefsState) : List Char :=
  match st.manualOverrides with
  | none => "\x7b\x7d".data
  | some s => if s = [] then "\x7b\x7d".data else s

/-- `ManualOverrides.load`: read the pref (defaulted on a falsy value),
trim it, return the empty map on the empty or empty-object text, otherwise
parse; on a parse failure log, reset the map to empty AND overwrite the
pref with the empty-object text.  The caller always receives a map — the
failure is not propagated. -/
def loadOverrides (parse : List Char → Option (List (List Char × List Char)))
    (st : PrefsState) : List (List Char × List Char) × PrefsState :=
  let trimmedData := trimChars (prefData st)
  if trimmedData = [] ∨ trimmedData = "\x7b\x7d".data then
    ([], st)
  else
    match parse trimmedData with
    | some parsed => (parsed, st)
    | none => ([], { manualOverrides := some "\x7b\x7d".data })

/-! # Claim theorems -/

/-- Claim C7: for all strings `s`, `normalize(normalize(s)) = normalize(s)` —
the normalizer (lowercase, `&` to `and`, telecommunication(s) collapse,
non-alphanumeric replacement, whitespace collapse, trim) is idempotent. -/
theorem claim_normalize_idempotent (s : String) :
    normalizeString (normalizeString s) = normalizeString s :=
  congrArg String.mk (normalizeChars_idem s.data)

/-- Claim C8 counterexample: the underscore is not a letter, a digit, or
whitespace, yet it survives normalization unchanged (JS `\w` includes `_`),
so the normalizer does NOT replace every non-letter-digit-whitespace
character with a space. -/
theorem claim_normalize_underscore_cex :
    normalizeString "a_b" = "a_b" ∧ '_' ∈ (normalizeString "a_b").data ∧
      isAsciiLetter '_' = false ∧ isDigitChar '_' = false ∧
      isSpaceChar '_' = false := by
  refine ⟨?_, ?_, by decide, by decide, by decide⟩
  · apply congrArg String.mk
    decide
  · decide

/-- Claim C8 (amended): the normalizer replaces every character that is not
a word character (letter, digit, or underscore — `\w`) and not whitespace
with a single space, then collapses whitespace runs and trims: every output
character is a word character or a single `' '`, no two adjacent output
characters are both spaces, and the output has no leading or trailing
whitespace. -/
theorem claim_normalize_output_shape (s : String) :
    (∀ c ∈ (normalizeString s).data, isWordChar c = true ∨ c = ' ') ∧
    (normalizeString s).data.Chain' okPair ∧
    (normalizeString s).data.dropWhile isSpaceChar = (normalizeString s).data ∧
    rtrim (normalizeString s).data = (normalizeString s).data :=
  ⟨fun _ hc => normalizeChars_class hc, chain_normalizeChars s.data,
    normalizeChars_dropSpace_id s.data, normalizeChars_rtrim_id s.data⟩

/-- Claim C2: the journal matcher's first (Exact) strategy returns a table
entry's ranking if and only if the raw input title equals the table key
under case-insensitive comparison alone — no cleaning, no normalization —
and the value returned is `quartile + " " + sjr` of such an entry. -/
theorem claim_journal_exact (table : List (List Char × SjrEntry))
    (title : List Char) :
    ((∃ r, matchExact table title = some r) ↔
      ∃ kv ∈ table, kv.1.map lowerChar = title.map lowerChar) ∧
    (∀ r, matchExact table title = some r →
      ∃ kv ∈ table, kv.1.map lowerChar = title.map lowerChar ∧
        r = kv.2.quartile ++ ' ' :: kv.2.sjr) := by
  have key : ∀ kv, (table.find? fun kv =>
      kv.1.map lowerChar == title.map lowerChar) = some kv →
      kv ∈ table ∧ kv.1.map lowerChar = title.map lowerChar :=
    fun kv h => ⟨List.mem_of_find?_eq_some h, by
      have hp := List.find?_some h
      simpa using hp⟩
  constructor
  · constructor
    · rintro ⟨r, hr⟩
      simp only [matchExact] at hr
      cases hf : table.find? fun kv =>
          kv.1.map lowerChar == title.map lowerChar with
      | none => rw [hf] at hr; exact absurd hr (by simp)
      | some kv =>
        obtain ⟨hm, he⟩ := key kv hf
        exact ⟨kv, hm, he⟩
    · rintro ⟨kv, hm, he⟩
      have hs : (table.find? fun kv =>
          kv.1.map lowerChar == title.map lowerChar).isSome :=
        List.find?_isSome.mpr ⟨kv, hm, beq_iff_eq.mpr he⟩
      rw [Option.isSome_iff_exists] at hs
      obtain ⟨kv', hf⟩ := hs
      refine ⟨sjrResult kv'.2, ?_⟩
      simp only [matchExact]
      rw [hf]
      rfl
  · intro r hr
    simp only [matchExact] at hr
    cases hf : table.find? fun kv =>
        kv.1.map lowerChar == title.map lowerChar with
    | none => rw [hf] at hr; exact absurd hr (by simp)
    | some kv =>
      rw [hf] at hr
      obtain ⟨hm, he⟩ := key kv hf
      refine ⟨kv, hm, he, ?_⟩
      have h2 : some (sjrResult kv.2) = some r := by rw [← hr]; rfl
      rw [← Option.some_inj.mp h2]
      rfl

/-- Claim C2 witness: a concrete table entry matched purely by
case-folding, punctuation kept verbatim. -/
theorem claim_journal_exact_witness :
    matchExact [("A-B Journal".data, ⟨"Q2".data, "0.5".data⟩)]
        "a-b JOURNAL".data = some "Q2 0.5".data ∧
    ∃ kv ∈ [("A-B Journal".data, (⟨"Q2".data, "0.5".data⟩ : SjrEntry))],
      kv.1.map lowerChar = "a-b JOURNAL".data.map lowerChar ∧
        "Q2 0.5".data = kv.2.quartile ++ ' ' :: kv.2.sjr :=
  ⟨by decide, (claim_journal_exact _ _).2 _ (by decide)⟩

/-- Key lookup after the in-place `Map.set` replacement. -/
theorem find?_ovSet_map (m : List (List Char × List Char)) (k r k' : List Char) :
    ((m.map fun kv => if kv.1 = k then (k, r) else kv).find?
        fun kv => kv.1 == k') =
      if k' = k then (m.find? fun kv => kv.1 == k).map fun _ => (k, r)
      else m.find? fun kv => kv.1 == k' := by
  induction m with
  | nil =>
    by_cases h : k' = k
    · rw [if_pos h]; rfl
    · rw [if_neg h]; rfl
  | cons kv rest ih =>
    by_cases hk : kv.1 = k
    · rw [List.map_cons, if_pos hk]
      by_cases h' : k' = k
      · rw [if_pos h',
          List.find?_cons_of_pos _ (by simp [h']),
          List.find?_cons_of_pos _ (by simp [hk])]
        rfl
      · rw [if_neg h',
          List.find?_cons_of_neg _ (by simp; exact fun he => h' he.symm),
          List.find?_cons_of_neg _ (by simp [hk]
                                       exact fun he => h' he.symm),
          ih, if_neg h']
    · rw [List.map_cons, if_neg hk]
      by_cases h'' : kv.1 = k'
      · have hne : k' ≠ k := fun he => hk (h''.trans he)
        rw [if_neg hne,
          List.find?_cons_of_pos _ (by simp [h'']),
          List.find?_cons_of_pos _ (by simp [h''])]
      · by_cases h' : k' = k
        · rw [if_pos h',
            List.find?_cons_of_neg _ (by simp [h'']),
            List.find?_cons_of_neg _ (by simp [hk]),
            ih, if_pos h']
        · rw [if_neg h',
            List.find?_cons_of_neg _ (by simp [h'']),
            List.find?_cons_of_neg _ (by simp [h'']),
            ih, if_neg h']

/-- `get` after `set`: the freshly-set key reads back the new rank and
every other key is untouched. -/
theorem ovGet_ovSet (m : List (List Char × List Char)) (t r t' : List Char) :
    ovGet (ovSet m t r) t' =
      if keyOf t' = keyOf t then some r else ovGet m t' := by
  simp only [ovGet, ovSet]
  by_cases hex : (m.any fun kv => kv.1 == keyOf t) = true
  · rw [if_pos hex, find?_ovSet_map]
    by_cases h' : keyOf t' = keyOf t
    · rw [if_pos h', if_pos h']
      have hsome : (m.find? fun kv => kv.1 == keyOf t).isSome := by
        rw [List.find?_isSome]
        obtain ⟨x, hx, hp⟩ := List.any_eq_true.mp hex
        exact ⟨x, hx, hp⟩
      obtain ⟨kv0, hkv⟩ := Option.isSome_iff_exists.mp hsome
      rw [hkv]; rfl
    · rw [if_neg h', if_neg h']
  · rw [if_neg hex, List.find?_append]
    by_cases h' : keyOf t' = keyOf t
    · rw [if_pos h']
      have hn : (m.find? fun kv => kv.1 == keyOf t') = none := by
        rw [List.find?_eq_none]
        intro x hx hp
        rw [h'] at hp
        exact hex (List.any_eq_true.mpr ⟨x, hx, hp⟩)
      rw [hn, Option.none_or,
        List.find?_cons_of_pos _ (by simp [h'])]
      rfl
    · rw [if_neg h']
      have h1 : (([(keyOf t, r)]).find? fun kv => kv.1 == keyOf t') = none := by
        rw [List.find?_eq_none]
        intro x hx hp
        rw [List.mem_singleton] at hx
        rw [hx] at hp
        simp only [beq_iff_eq] at hp
        exact h' hp.symm
      rw [h1, Option.or_none]

/-- `get` after `remove`: the removed key reads back absent. -/
theorem ovGet_ovRemove_self (m : List (List Char × List Char)) (t : List Char) :
    ovGet (ovRemove m t) t = none := by
  simp only [ovGet, ovRemove]
  have hn : (List.find? (fun kv => kv.1 == keyOf t)
      (m.filter fun kv => !(kv.1 == keyOf t))) = none := by
    rw [List.find?_eq_none]
    intro x hx hp
    have hq := List.of_mem_filter hx
    rw [hp] at hq
    exact absurd hq (by decide)
  rw [hn]
  rfl

/-- Claim C4: after `set(t, r)`, `get(t')` returns `r` exactly when the
lowercased-and-trimmed key of `t'` equals that of `t` (assuming `r` is not
already the value stored under some other key, which the claim's fresh-set
reading presumes); after `remove(t)`, `get(t)` is absent; and punctuation
and inner spacing are preserved in keys, so titles differing there map to
distinct keys. -/
theorem claim_overrides_set_get (m : List (List Char × List Char))
    (t t' r : List Char)
    (hm : keyOf t' ≠ keyOf t → ovGet m t' ≠ some r) :
    (ovGet (ovSet m t r) t' = some r ↔ keyOf t' = keyOf t) ∧
    ovGet (ovRemove m t) t = none ∧
    keyOf "a.b".data ≠ keyOf "a b".data ∧
    keyOf "a  b".data ≠ keyOf "a b".data := by
  refine ⟨?_, ovGet_ovRemove_self m t, by decide, by decide⟩
  rw [ovGet_ovSet]
  by_cases h' : keyOf t' = keyOf t
  · rw [if_pos h']
    exact ⟨fun _ => h', fun _ => rfl⟩
  · rw [if_neg h']
    exact ⟨fun hc => absurd hc (hm h'), fun hc => absurd hc h'⟩

/-- Claim C4 witness: a concrete set/get/remove round-trip (case and outer
whitespace are normalized away; the inner punctuation stays). -/
theorem claim_overrides_set_get_witness :
    (ovGet (ovSet [] " A.b ".data "Q1".data) "a.B".data = some "Q1".data ↔
      keyOf "a.B".data = keyOf " A.b ".data) ∧
    ovGet (ovRemove [] " A.b ".data) " A.b ".data = none ∧
    keyOf "a.b".data ≠ keyOf "a b".data ∧
    keyOf "a  b".data ≠ keyOf "a b".data :=
  claim_overrides_set_get [] " A.b ".data "a.B".data "Q1".data
    (fun _ => by decide)

/-- Claim C6: when the persisted override value reaches the parser and the
parse fails, `load` does not propagate the failure: it returns the empty
map (the in-memory reset) together with the pref slot overwritten by the
two-character empty-map representation, and a subsequent `load` of that state
returns the empty map without the pref changing again (it short-circuits
before parsing). -/
theorem claim_overrides_load_recovers
    (parse : List Char → Option (List (List Char × List Char)))
    (st : PrefsState)
    (h1 : trimChars (prefData st) ≠ [])
    (h2 : trimChars (prefData st) ≠ "\x7b\x7d".data)
    (h3 : parse (trimChars (prefData st)) = none) :
    loadOverrides parse st = ([], ⟨some "\x7b\x7d".data⟩) ∧
    loadOverrides parse ⟨some "\x7b\x7d".data⟩ =
      ([], ⟨some "\x7b\x7d".data⟩) := by
  constructor
  · simp only [loadOverrides]
    rw [if_neg (by intro h; rcases h with h | h; exacts [h1 h, h2 h]), h3]
  · simp only [loadOverrides]
    rw [if_pos (by right; decide)]

/-- Claim C6 witness: a concrete corrupted pref value and a parser that
rejects it. -/
theorem claim_overrides_load_recovers_witness :
    loadOverrides (fun _ => none) ⟨some "corrupted".data⟩ =
      ([], ⟨some "\x7b\x7d".data⟩) ∧
    loadOverrides (fun _ => none) ⟨some "\x7b\x7d".data⟩ =
      ([], ⟨some "\x7b\x7d".data⟩) :=
  claim_overrides_load_recovers (fun _ => none) ⟨some "corrupted".data⟩
    (by decide) (by decide) rfl

/-- Claim C3 (code bug): `register` stores `config.priority || 999`, and
`0` is falsy in JS, so a source registered with priority 0 is stored with
priority 999, and `getEnabledDatabases` lists it AFTER a priority-100
source.  This is exactly the repository's own configuration (SJR is
registered with priority 0 "checked first", CORE with priority 100), so
the code contradicts its own comments and the claim's ordering. -/
theorem claim_priority_zero_bug :
    register [] ⟨"sjr".data, "SCImago Journal Rankings".data,
        none, some 0, some 0⟩ =
      Except.ok [⟨"sjr".data, "SCImago Journal Rankings".data, none, 999, 0⟩] ∧
    register [⟨"sjr".data, "SCImago Journal Rankings".data, none, 999, 0⟩]
        ⟨"core".data, "CORE Conference Rankings".data,
          some "enableCORE".data, some 100, some 1⟩ =
      Except.ok [⟨"sjr".data, "SCImago Journal Rankings".data, none, 999, 0⟩,
        ⟨"core".data, "CORE Conference Rankings".data,
          some "enableCORE".data, 100, 1⟩] ∧
    getEnabledDatabases (fun _ => true)
        [⟨"sjr".data, "SCImago Journal Rankings".data, none, 999, 0⟩,
         ⟨"core".data, "CORE Conference Rankings".data,
           some "enableCORE".data, 100, 1⟩] =
      [⟨"core".data, "CORE Conference Rankings".data,
          some "enableCORE".data, 100, 1⟩,
       ⟨"sjr".data, "SCImago Journal Rankings".data, none, 999, 0⟩] := by
  refine ⟨by rfl, by rfl, by decide⟩

/-- Claim C10: re-registering an existing id replaces the stored name,
enablement key, priority (after the `|| 999` defaulting) and match
function, keeps the source at its original position in the registry's
iteration order (JS `Map.set` updates the value in place), and leaves the
number of registered sources unchanged. -/
theorem claim_register_overwrite (s : List StoredDB) (c : DBConfig) (m : Nat)
    (hm : c.matcher = some m) (hvalid : ¬(c.id = [] ∨ c.name = []))
    (hex : ∃ e ∈ s, e.id = c.id) :
    register s c =
      Except.ok (s.map fun e => if e.id = c.id then storedOf c m else e) ∧
    (s.map fun e => if e.id = c.id then storedOf c m else e).length = s.length ∧
    (s.map fun e => if e.id = c.id then storedOf c m else e).map (fun e => e.id) =
      s.map fun e => e.id := by
  refine ⟨?_, by rw [List.length_map], ?_⟩
  · simp only [register, hm]
    rw [if_neg hvalid, if_pos ?hp]
    case hp =>
      obtain ⟨e, he, hid⟩ := hex
      exact List.any_eq_true.mpr ⟨e, he, beq_iff_eq.mpr hid⟩
  · rw [List.map_map]
    apply List.map_congr_left
    intro e he
    by_cases hid : e.id = c.id
    · simp only [Function.comp_apply, if_pos hid]
      exact hid.symm
    · simp only [Function.comp_apply, if_neg hid]

/-- Claim C10 witness: re-registering `sjr` in a two-source registry
replaces its fields in place and keeps it first. -/
theorem claim_register_overwrite_witness :
    register [⟨"sjr".data, "Old".data, none, 5, 0⟩,
              ⟨"core".data, "C".data, none, 100, 1⟩]
        ⟨"sjr".data, "New Name".data, some "k".data, some 7, some 9⟩ =
      Except.ok ([⟨"sjr".data, "Old".data, none, 5, 0⟩,
                  ⟨"core".data, "C".data, none, 100, 1⟩].map fun e =>
        if e.id = "sjr".data then
          storedOf ⟨"sjr".data, "New Name".data, some "k".data, some 7, some 9⟩ 9
        else e) ∧
    ([⟨"sjr".data, "Old".data, none, 5, 0⟩,
      ⟨"core".data, "C".data, none, 100, 1⟩].map fun e =>
        if e.id = "sjr".data then
          storedOf ⟨"sjr".data, "New Name".data, some "k".data, some 7, some 9⟩ 9
        else e).length =
      [⟨"sjr".data, "Old".data, none, 5, 0⟩,
       (⟨"core".data, "C".data, none, 100, 1⟩ : StoredDB)].length :=
  ⟨(claim_register_overwrite
      [⟨"sjr".data, "Old".data, none, 5, 0⟩, ⟨"core".data, "C".data, none, 100, 1⟩]
      ⟨"sjr".data, "New Name".data, some "k".data, some 7, some 9⟩ 9 rfl
      (by decide) ⟨⟨"sjr".data, "Old".data, none, 5, 0⟩,
        List.mem_cons_self _ _, rfl⟩).1,
   (claim_register_overwrite
      [⟨"sjr".data, "Old".data, none, 5, 0⟩, ⟨"core".data, "C".data, none, 100, 1⟩]
      ⟨"sjr".data, "New Name".data, some "k".data, some 7, some 9⟩ 9 rfl
      (by decide) ⟨⟨"sjr".data, "Old".data, none, 5, 0⟩,
        List.mem_cons_self _ _, rfl⟩).2.1⟩

/-- `find?` is the head of `filter`. -/
theorem find?_eq_head?_filter {α : Type} (p : α → Bool) (l : List α) :
    l.find? p = (l.filter p).head? := by
  induction l with
  | nil => rfl
  | cons a rest ih =>
    by_cases hp : p a = true
    · rw [List.find?_cons_of_pos _ hp, List.filter_cons_of_pos hp]
      rfl
    · rw [List.find?_cons_of_neg _ hp,
        List.filter_cons_of_neg (by rwa [Bool.not_eq_true] at hp ⊢), ih]

/-- The acronym-resolution rule exactly as Claim C5 states it: only for an
extracted acronym of length ≥ 4, return the rank of the entry whose stored
acronym matches when the table holds exactly one such entry, absent for
zero or two-or-more; shorter or missing acronyms resolve to absent. -/
def claimAcronymResolution (table : List (List Char × CoreEntry))
    (acr : Option (List Char)) : Option (List Char) :=
  match acr with
  | none => none
  | some a =>
    if a.length < 4 then none
    else if table.countP (fun kv => kv.2.acronym == some a) = 1 then
      (table.find? fun kv => kv.2.acronym == some a).map fun kv => kv.2.rank
    else none

/-- Strategy 5 of the conference matcher computes exactly the claim's
acronym-resolution rule. -/
theorem coreStrat5_eq_claim (table : List (List Char × CoreEntry))
    (acr : Option (List Char)) :
    coreStrat5 table acr = claimAcronymResolution table acr := by
  cases acr with
  | none => rfl
  | some a =>
    simp only [coreStrat5, claimAcronymResolution]
    by_cases h4 : 4 ≤ a.length
    · rw [if_pos h4]
      have h4' : ¬a.length < 4 := by omega
      rw [if_neg h4', List.countP_eq_length_filter]
      by_cases h1 : (table.filter fun kv => kv.2.acronym == some a).length = 1
      · rw [if_pos h1, if_pos h1, find?_eq_head?_filter]
      · rw [if_neg h1, if_neg h1]
    · have h4' : a.length < 4 := by omega
      rw [if_neg h4, if_pos h4']

/-- Claim C5: whenever the conference matcher's first four strategies all
fail, the matcher resolves exactly by the unique-acronym rule — for an
extracted acronym of length ≥ 4 it returns the rank of the single matching
table entry when exactly one exists and absent when zero or several share
the acronym, and for a shorter or missing acronym it returns absent. -/
theorem claim_core_acronym (table : List (List Char × CoreEntry))
    (title : List Char)
    (h1 : coreStrat1 table (normalizeChars (cleanConferenceTitle title)) = none)
    (h2 : coreStrat2 table (normalizeChars (cleanConferenceTitle title)) = none)
    (h3 : coreStrat3 table (normalizeChars (cleanConferenceTitle title)) = none)
    (h4 : coreStrat4 table
      (sigWords (normalizeChars (cleanConferenceTitle title))) = none) :
    matchCoreConference table title =
      claimAcronymResolution table (extractAcronym title) := by
  simp only [matchCoreConference]
  rw [h1, Option.none_or, h2, Option.none_or, h3, Option.none_or, h4,
    Option.none_or]
  exact coreStrat5_eq_claim table (extractAcronym title)

/-- Claim C5 witness: a one-entry table on which strategies 1–4 all fail
and the unique length-4 acronym resolves to the entry's rank. -/
theorem claim_core_acronym_witness :
    matchCoreConference
        [("International Conference on Very Advanced Computing Engineering Systems".data,
          ⟨"A".data, some "ABCD".data⟩)] "Xyzzy (ABCD)".data =
      claimAcronymResolution
        [("International Conference on Very Advanced Computing Engineering Systems".data,
          ⟨"A".data, some "ABCD".data⟩)] (extractAcronym "Xyzzy (ABCD)".data) ∧
    matchCoreConference
        [("International Conference on Very Advanced Computing Engineering Systems".data,
          ⟨"A".data, some "ABCD".data⟩)] "Xyzzy (ABCD)".data = some "A".data :=
  ⟨claim_core_acronym _ _ (by decide) (by decide) (by decide) (by decide),
   by decide⟩

/-- The journal word-overlap acceptance exactly as Claim C1 words it:
comma-truncated-and-normalized table key, thresholds 5 key tokens,
≥ 0.85 matched over key tokens, ≥ 0.80 over input tokens (spec-side
definition, for comparison with the source's `sjrOverlapAccept`). -/
def claimJournalOverlapAccept (title key : List Char) : Bool :=
  let inputToks := sigWords (normalizeChars (cleanConferenceTitle title))
  let keyToks := sigWords (normalizeChars (commaHead key))
  let mc := overlapCount keyToks inputToks
  decide (5 ≤ keyToks.length) && ratioGE mc keyToks.length 85 100 &&
    ratioGE mc inputToks.length 80 100

/-- Claim C1 counterexample: the registered journal matcher does NOT
comma-truncate the table key in its word-overlap strategy.  On the key
`"alpha beta gamma delta epsilon, zeta"` and the input
`"alpha beta gamma delta epsilon"`, the claim's comma-truncated rule
accepts (5/5 key tokens matched) while the code rejects (5 of 6 tokens of
the untruncated key, 83% < 85%). -/
theorem claim_sjr_overlap_cex :
    claimJournalOverlapAccept "alpha beta gamma delta epsilon".data
      "alpha beta gamma delta epsilon, zeta".data = true ∧
    sjrOverlapAccept "alpha beta gamma delta epsilon".data
      "alpha beta gamma delta epsilon, zeta".data = false :=
  ⟨by decide, by decide⟩

theorem overlapCount_eq_countP (kw sw : List (List Char)) :
    overlapCount kw sw = kw.countP fun w => sw.contains w := by
  induction kw with
  | nil => rfl
  | cons w rest ih =>
    rw [overlapCount, List.countP_cons, ih]
    by_cases h : sw.contains w = true
    · rw [if_pos h]; omega
    · rw [if_neg h]; omega

/-- The guarded JS ratio comparison is the exact rational comparison, with
a zero denominator rejecting. -/
theorem ratioGE_iff_rat (m n p q : Nat) (hq : 0 < q) :
    ratioGE m n p q = true ↔ n ≠ 0 ∧ (p : ℚ) / q ≤ (m : ℚ) / n := by
  rw [ratioGE, Bool.and_eq_true, decide_eq_true_eq, decide_eq_true_eq]
  apply and_congr_right
  intro hn
  have hn' : 0 < (n : ℚ) := by exact_mod_cast Nat.pos_of_ne_zero hn
  have hq' : 0 < (q : ℚ) := by exact_mod_cast hq
  rw [div_le_div_iff₀ hq' hn',
    show (m : ℚ) * q = ((q * m : Nat) : ℚ) by push_cast; ring,
    show (p : ℚ) * n = ((p * n : Nat) : ℚ) by push_cast; ring,
    Nat.cast_le]

/-- Claim C1 (amended): the registered journal matcher's word-overlap
strategy accepts a table key iff, tokenizing the cleaned-and-normalized
input and the fully normalized table key (NO comma truncation) on spaces
and keeping tokens longer than 3, the key has at least 5 such tokens, the
matched fraction of key tokens is at least 85/100, and the same match
count over the input token count is at least 80/100 — both comparisons
inclusive, in exact arithmetic; an empty token list on either side
rejects. -/
theorem claim_sjr_overlap_characterization (title key : List Char) :
    sjrOverlapAccept title key = true ↔
      (5 ≤ (sigWords (normalizeChars key)).length ∧
       (85 : ℚ) / 100 ≤
         (((sigWords (normalizeChars key)).countP fun w =>
             (sigWords (normalizeChars (cleanConferenceTitle title))).contains w : ℚ)) /
           ((sigWords (normalizeChars key)).length : ℚ) ∧
       (80 : ℚ) / 100 ≤
         (((sigWords (normalizeChars key)).countP fun w =>
             (sigWords (normalizeChars (cleanConferenceTitle title))).contains w : ℚ)) /
           ((sigWords (normalizeChars (cleanConferenceTitle title))).length : ℚ)) := by
  simp only [sjrOverlapAccept]
  rw [overlapCount_eq_countP]
  simp only [Bool.and_eq_true, decide_eq_true_eq]
  rw [ratioGE_iff_rat _ _ _ _ (by norm_num),
    ratioGE_iff_rat _ _ _ _ (by norm_num)]
  constructor
  · rintro ⟨⟨h5, _, hr1⟩, _, hr2⟩
    exact ⟨h5, hr1, hr2⟩
  · rintro ⟨h5, hr1, hr2⟩
    have hk : (sigWords (normalizeChars key)).length ≠ 0 := by omega
    have hs : (sigWords (normalizeChars (cleanConferenceTitle title))).length ≠ 0 := by
      intro h0
      rw [h0] at hr2
      norm_num at hr2
    exact ⟨⟨h5, hk, hr1⟩, hs, hr2⟩

/-- A `(find? p l).map f` result always comes from an element of `l`. -/
theorem find?_map_sound {α β : Type} {p : α → Bool} {f : α → β} {l : List α}
    {r : β} (h : (l.find? p).map f = some r) : ∃ x ∈ l, r = f x := by
  cases hf : l.find? p with
  | none => rw [hf] at h; exact absurd h (by simp)
  | some x =>
    rw [hf] at h
    have hfx : f x = r := by simpa using h
    exact ⟨x, List.mem_of_find?_eq_some hf, hfx.symm⟩

/-- An `Option.or` of sound alternatives is sound. -/
theorem option_or_sound {α : Type} {x y : Option α} {P : α → Prop}
    (hx : ∀ r, x = some r → P r) (hy : ∀ r, y = some r → P r) :
    ∀ r, x.or y = some r → P r := by
  intro r h
  cases x with
  | some a => exact hx r h
  | none => rw [Option.none_or] at h; exact hy r h

theorem coreStrat5_sound {table : List (List Char × CoreEntry)}
    {acr : Option (List Char)} {r : List Char}
    (h : coreStrat5 table acr = some r) : ∃ kv ∈ table, r = kv.2.rank := by
  cases acr with
  | none => exact absurd h (by simp [coreStrat5])
  | some a =>
    simp only [coreStrat5] at h
    by_cases h4 : 4 ≤ a.length
    · rw [if_pos h4] at h
      by_cases h1 : (table.filter fun kv => kv.2.acronym == some a).length = 1
      · rw [if_pos h1] at h
        cases hh : (table.filter fun kv => kv.2.acronym == some a).head? with
        | none => rw [hh] at h; exact absurd h (by simp)
        | some kv =>
          rw [hh] at h
          have hkv : kv ∈ table :=
            List.mem_of_mem_filter
              (List.mem_of_mem_head? (Option.mem_def.mpr hh))
          have hr : kv.2.rank = r := by simpa using h
          exact ⟨kv, hkv, hr.symm⟩
      · rw [if_neg h1] at h; exact absurd h (by simp)
    · rw [if_neg h4] at h; exact absurd h (by simp)

/-- Every ranking returned by the conference matcher is the rank of a
table entry. -/
theorem matchCoreConference_sound (table : List (List Char × CoreEntry))
    (title : List Char) :
    ∀ r, matchCoreConference table title = some r →
      ∃ kv ∈ table, r = kv.2.rank := by
  simp only [matchCoreConference]
  apply option_or_sound
  · apply option_or_sound
    · apply option_or_sound
      · apply option_or_sound
        · intro r h; exact find?_map_sound h
        · intro r h; exact find?_map_sound h
      · intro r h; exact find?_map_sound h
    · intro r h; exact find?_map_sound h
  · intro r h; exact coreStrat5_sound h

/-- Every entry returned by the legacy journal matcher is a table entry. -/
theorem matchSjrJournalJs_sound (table : List (List Char × SjrEntry))
    (title : List Char) :
    ∀ e, matchSjrJournalJs table title = some e → ∃ kv ∈ table, e = kv.2 := by
  simp only [matchSjrJournalJs, jsSjrStrat1, jsSjrStrat2, jsSjrStrat3]
  apply option_or_sound
  · apply option_or_sound
    · intro e h; exact find?_map_sound h
    · intro e h; exact find?_map_sound h
  · intro e h; exact find?_map_sound h

/-- Claim C9 counterexample: an input with no alphabetic content can still
match — a digits-only table key equals the digits-only title after
normalization, so the journal matcher returns its ranking, not absent. -/
theorem claim_no_alpha_cex :
    matchSjrJournalJs [("2345".data, ⟨"Q1".data, "1.0".data⟩)] "2345".data =
      some ⟨"Q1".data, "1.0".data⟩ ∧
    "2345".data.all (fun c => !isAsciiLetter c) = true :=
  ⟨by decide, by decide⟩

set_option maxHeartbeats 1000000 in
/-- Claim C9 (amended): for every string input and every reference table,
the conference matcher and the journal matcher are total functions that
return either a ranking drawn from the table or absent (no exception is
modelled: both are plain functions into `Option`), and no accepting path
of a word-overlap strategy evaluates a ratio with a zero token count. -/
theorem claim_matchers_total (tableC : List (List Char × CoreEntry))
    (tableS : List (List Char × SjrEntry)) (title : List Char) :
    (matchCoreConference tableC title = none ∨
      ∃ kv ∈ tableC, matchCoreConference tableC title = some kv.2.rank) ∧
    (matchSjrJournalJs tableS title = none ∨
      ∃ kv ∈ tableS, matchSjrJournalJs tableS title = some kv.2) ∧
    (∀ zw key, coreOverlapAccept zw key = true →
      0 < (sigWords (normalizeChars key)).length) ∧
    (∀ t key, jsSjrOverlapAccept t key = true →
      0 < (sigWords (normalizeChars (commaHead key))).length ∧
      0 < (sigWords (normalizeChars (cleanConferenceTitle t))).length) := by
  refine ⟨?_, ?_, ?_, ?_⟩
  · cases hm : matchCoreConference tableC title with
    | none => exact Or.inl rfl
    | some r =>
      obtain ⟨kv, hkv, hr⟩ := matchCoreConference_sound tableC title r hm
      exact Or.inr ⟨kv, hkv, by rw [hr]⟩
  · cases hm : matchSjrJournalJs tableS title with
    | none => exact Or.inl rfl
    | some e =>
      obtain ⟨kv, hkv, hr⟩ := matchSjrJournalJs_sound tableS title e hm
      exact Or.inr ⟨kv, hkv, by rw [hr]⟩
  · intro zw key h
    rw [coreOverlapAccept, Bool.and_eq_true] at h
    obtain ⟨-, hrat⟩ := h
    rw [ratioGE, Bool.and_eq_true, decide_eq_true_eq] at hrat
    exact Nat.pos_of_ne_zero hrat.1
  · intro t key h
    rw [jsSjrOverlapAccept, Bool.and_eq_true, Bool.and_eq_true] at h
    obtain ⟨⟨-, hrat1⟩, hrat2⟩ := h
    rw [ratioGE, Bool.and_eq_true, decide_eq_true_eq] at hrat1
    rw [ratioGE, Bool.and_eq_true, decide_eq_true_eq] at hrat2
    exact ⟨Nat.pos_of_ne_zero hrat1.1, Nat.pos_of_ne_zero hrat2.1⟩

/-- Claim C9 witness: concrete accepting overlap inputs have positive
token counts on every divided side. -/
theorem claim_matchers_total_witness :
    0 < (sigWords (normalizeChars "alpha beta gamma delta".data)).length ∧
    0 < (sigWords (normalizeChars
          (commaHead "alpha beta gamma delta epsilon".data))).length ∧
    0 < (sigWords (normalizeChars
          (cleanConferenceTitle "alpha beta gamma delta epsilon".data))).length :=
  ⟨(claim_matchers_total [] [] []).2.2.1
      (sigWords (normalizeChars "alpha beta gamma delta".data))
      "alpha beta gamma delta".data (by decide),
   ((claim_matchers_total [] [] []).2.2.2
      "alpha beta gamma delta epsilon".data
      "alpha beta gamma delta epsilon".data (by decide)).1,
   ((claim_matchers_total [] [] []).2.2.2
      "alpha beta gamma delta epsilon".data
      "alpha beta gamma delta epsilon".data (by decide)).2⟩

end PubRank
